import Mathlib

/-!
# Frontier sets: a verification development for `bobg/frontier`

The Go package `frontier` keeps a trie (`tier` nodes) of the byte strings that were
excluded, and enumerates with `Walk` the shortest prefixes leaving that trie.

## Embedding

* A Go `[]byte` is a `List Byte` with `Byte = Fin 256`; the `nil` slice and the empty
  slice are both `[]`.
* A value of the interface type `tier` is a `Tier`: `Tier.nil` is the nil interface,
  `Tier.zerotier` is `zerotier{}`, `Tier.unitier b t` is a pointer to `unitier{b, t}`
  and `Tier.arraytier a` is a pointer to an `arraytier` whose slot `i` holds `a i`.
  Every pointer of the program is made by `&unitier{...}` or `new(arraytier)`, so no
  typed nil pointer is ever stored in an interface, and the nodes form a tree without
  sharing: in-place mutation is modelled by returning the new node.
* Every operation returns an `Option`; `none` is a run-time panic of the Go program
  (an index out of range, or a method call on the nil interface).
* `Walk` returns the list of the strings passed to the callback, in call order.
-/

namespace frontier

/-- A byte of a Go `[]byte`. -/
abbrev Byte := Fin 256

/-- The values taken by `byte(i)` in the loop `for i := 0; i < 256; i++`, in loop order. -/
def allBytes : List Byte := List.finRange 256

/-- A value of the Go interface type `tier`. -/
inductive Tier where
  | nil : Tier
  | zerotier : Tier
  | unitier (b : Byte) (t : Tier) : Tier
  | arraytier (a : Byte → Tier) : Tier

/-- The Go test `x == nil` on an interface value. -/
def Tier.isNil : Tier → Bool
  | .nil => true
  | _ => false

/-- The zero value of `arraytier` (`new(arraytier)`, `emptyArraytier`): every slot nil. -/
def emptyArraytier : Byte → Tier := fun _ => Tier.nil

/-- The method `get` of `zerotier`, `*unitier` and `*arraytier`, dispatched on the
interface value; a call on the nil interface panics. -/
def Tier.get : Tier → Byte → Option Tier
  | .nil, _ => none
  | .zerotier, _ => some .nil
  | .unitier b t, c => if b = c then some t else some .nil
  | .arraytier a, c => some (a c)

/-- The method `empty`; for an `arraytier` it is `*t == emptyArraytier`, the slot by slot
comparison with nil. -/
def Tier.empty : Tier → Option Bool
  | .nil => none
  | .zerotier => some true
  | .unitier _ _ => some false
  | .arraytier a => some (allBytes.all fun i => (a i).isNil)

/-- The body of `(*arraytier).set`; `recur el` stands for `el.set(str[1:], subtier)`. -/
def arraytierSet (recur : Tier → Option Tier) (a : Byte → Tier) (str : List Byte)
    (subtier : Tier) : Option Tier :=
  if str.length = 1 then do
    let s0 ← str[0]?
    pure (.arraytier (Function.update a s0 subtier))
  else do
    let s0 ← str[0]?
    let el ← if (a s0).isNil then do
          let s1 ← str[1]?
          pure (Tier.unitier s1 .nil)
        else pure (a s0)
    let r ← recur el
    pure (.arraytier (Function.update a s0 r))

/-- The body of `(*unitier).set` on the node `unitier{b, t}`; `recur el` stands for
`el.set(str[1:], subtier)`. The first branch of the source, `t == nil`, is for a nil
pointer receiver, which no interface value of the program holds. -/
def unitierSet (recur : Tier → Option Tier) (b : Byte) (t : Tier) (str : List Byte)
    (subtier : Tier) : Option Tier := do
  let s0 ← str[0]?
  if b = s0 then
    if str.length = 1 then
      pure (.unitier b subtier)
    else do
      let t1 ← if t.isNil then do
            let s1 ← str[1]?
            pure (Tier.unitier s1 .nil)
          else pure t
      let r ← recur t1
      pure (.unitier b r)
  else
    arraytierSet recur (Function.update emptyArraytier b t) str subtier

/-- The method `set`, dispatched on the interface value, by recursion on `str`
(each call of `set` on a child is on `str[1:]`). On the empty `str` every receiver
panics at `str[0]`; `zerotier.set` is `(&unitier{b: str[0]}).set(str, subtier)`. -/
def Tier.set : Tier → List Byte → Tier → Option Tier
  | _, [], _ => none
  | .nil, _ :: _, _ => none
  | .zerotier, c :: rest, subtier =>
      unitierSet (fun el => Tier.set el rest subtier) c .nil (c :: rest) subtier
  | .unitier b t, c :: rest, subtier =>
      unitierSet (fun el => Tier.set el rest subtier) b t (c :: rest) subtier
  | .arraytier a, c :: rest, subtier =>
      arraytierSet (fun el => Tier.set el rest subtier) a (c :: rest) subtier

/-- The function `check`; `pre` is the Go parameter `prefix`. -/
def check : Tier → List Byte → List Byte → Option (List Byte × Bool)
  | tier, [], pre => do
      let e ← tier.empty
      pure (pre, e)
  | tier, c :: rest, pre => do
      let subtier ← tier.get c
      if subtier.isNil then do
        let e ← tier.empty
        pure (pre, e)
      else check subtier rest (pre ++ [c])

/-- The loop of `walkHelper` over the byte values `is` on the non-nil node `tier`;
`recur i s` stands for `walkHelper(tier.get(i), fn, s)`. The list returned holds the
contents of `s` at each call of `fn` (the source reuses the space of `s` afterwards). -/
def walkLoop (tier : Tier) (recur : Byte → List Byte → Option (List (List Byte)))
    (pre : List Byte) : List Byte → Option (List (List Byte))
  | [] => some []
  | i :: is => do
      let s := pre ++ [i]
      let subtier ← tier.get i
      let here ← if subtier.isNil then some [s] else recur i s
      let later ← walkLoop tier recur pre is
      pure (here ++ later)

/-- The function `walkHelper`, returning the strings given to `fn` in call order.
The only non-nil result of `get` on `unitier{b, t}` is `t`, and on an `arraytier`
it is the slot itself (see `walkHelper_eq`). -/
def walkHelper : Tier → List Byte → Option (List (List Byte))
  | .nil, _ => some []
  | .zerotier, pre => walkLoop .zerotier (fun _ _ => none) pre allBytes
  | .unitier b t, pre => walkLoop (.unitier b t) (fun _ s => walkHelper t s) pre allBytes
  | .arraytier a, pre =>
      walkLoop (.arraytier a) (fun i s => walkHelper (a i) s) pre allBytes

/-- The Go struct `Frontier`. -/
structure Frontier where
  top : Tier

/-- The zero value `var f Frontier`. -/
def Frontier.new : Frontier := ⟨.nil⟩

/-- The method `Frontier.Exclude`. -/
def Frontier.Exclude (f : Frontier) (str : List Byte) : Option Frontier :=
  if str.length = 0 then some f
  else do
    let s0 ← str[0]?
    let top := if f.top.isNil then Tier.unitier s0 .nil else f.top
    let top1 ← top.set str .zerotier
    pure ⟨top1⟩

/-- The method `Frontier.Check`. -/
def Frontier.Check (f : Frontier) (str : List Byte) : Option (List Byte × Bool) :=
  if f.top.isNil then some ([], true)
  else do
    let e ← f.top.empty
    if e then some ([], true) else check f.top str []

/-- The method `Frontier.Walk`. -/
def Frontier.Walk (f : Frontier) : Option (List (List Byte)) :=
  walkHelper f.top []

/-- A sequence of `Exclude` calls, in list order. -/
def Frontier.excludeAll : Frontier → List (List Byte) → Option Frontier
  | f, [] => some f
  | f, s :: rest => do
      let f1 ← f.Exclude s
      Frontier.excludeAll f1 rest

/-! ## Lexicographic byte order -/

/-- The test `bytes.Compare(x, y) < 0`: lexicographic order on byte strings, a proper
prefix being smaller. -/
def bytesLt : List Byte → List Byte → Bool
  | _, [] => false
  | [], _ :: _ => true
  | a :: x, b :: y => decide (a < b) || (decide (a = b) && bytesLt x y)

/-! ## Panic-free readings of the operations

The functions below are the values the operations above return when they do not
panic; the theorems `get_eq`, `empty_eq`, `set_eq`, `check_eq`, `walkHelper_eq_leaves`
state that, on a non-nil node, the operations return exactly these values. -/

/-- The child reached from a node by the byte `c`; nil when there is none. -/
def edge : Tier → Byte → Tier
  | .nil, _ => .nil
  | .zerotier, _ => .nil
  | .unitier b t, c => if b = c then t else .nil
  | .arraytier a, c => a c

/-- The value of `empty()` on a non-nil node. -/
def emptyB : Tier → Bool
  | .nil => false
  | .zerotier => true
  | .unitier _ _ => false
  | .arraytier a => allBytes.all fun i => (a i).isNil

/-- The node that replaces `t` when its edge `c` is made to lead to `v`. -/
def putEdge : Tier → Byte → Tier → Tier
  | .nil, _, _ => .nil
  | .zerotier, c, v => .unitier c v
  | .unitier b t, c, v =>
      if b = c then .unitier b v
      else .arraytier (Function.update (Function.update emptyArraytier b t) c v)
  | .arraytier a, c, v => .arraytier (Function.update a c v)

/-- The child on which `set` recurses: `el`, or `&unitier{b: c1}` when `el` is nil. -/
def childOrFresh (el : Tier) (c1 : Byte) : Tier :=
  if el.isNil then .unitier c1 .nil else el

/-- The value of `t.set(str, subtier)` on a non-nil node and a non-empty `str`. -/
def setP : Tier → List Byte → Tier → Tier
  | t, [], _ => t
  | t, c :: rest, subtier =>
      match rest with
      | [] => putEdge t c subtier
      | c1 :: _ => putEdge t c (setP (childOrFresh (edge t c) c1) rest subtier)

/-- The value of `check(t, str, pre)` on a non-nil node. -/
def checkP : Tier → List Byte → List Byte → List Byte × Bool
  | t, [], pre => (pre, emptyB t)
  | t, c :: rest, pre =>
      if (edge t c).isNil then (pre, emptyB t) else checkP (edge t c) rest (pre ++ [c])

/-- The strings `walkHelper(t, fn, pre)` gives to `fn`, in call order. -/
def leaves : Tier → List Byte → List (List Byte)
  | .nil, _ => []
  | .zerotier, pre => allBytes.flatMap fun i => [pre ++ [i]]
  | .unitier b t, pre =>
      allBytes.flatMap fun i =>
        if (edge (.unitier b t) i).isNil then [pre ++ [i]] else leaves t (pre ++ [i])
  | .arraytier a, pre =>
      allBytes.flatMap fun i => if (a i).isNil then [pre ++ [i]] else leaves (a i) (pre ++ [i])

/-- The node reached from `t` along the path `p`; nil when the path leaves the trie. -/
def descend : Tier → List Byte → Tier
  | t, [] => t
  | t, c :: rest => descend (edge t c) rest

/-- The Frontier after `Exclude(str)`. -/
def excludeP (f : Frontier) (str : List Byte) : Frontier :=
  match str with
  | [] => f
  | c :: _ => ⟨setP (childOrFresh f.top c) str .zerotier⟩

/-- The Frontier after the `Exclude` calls of `l`, in list order. -/
def excludeAllP (f : Frontier) (l : List (List Byte)) : Frontier :=
  l.foldl excludeP f

/-- The value of `Check(str)`. -/
def CheckP (f : Frontier) (str : List Byte) : List Byte × Bool :=
  if f.top.isNil || emptyB f.top then ([], true) else checkP f.top str []

/-- The shape of the nodes of a Frontier: the child of a `unitier` is present, and an
`arraytier` has at least two present slots. -/
inductive WellFormed : Tier → Prop
  | nil : WellFormed .nil
  | zerotier : WellFormed .zerotier
  | unitier (b : Byte) (t : Tier) : t.isNil = false → WellFormed t →
      WellFormed (.unitier b t)
  | arraytier (a : Byte → Tier) :
      (∃ i j, i ≠ j ∧ (a i).isNil = false ∧ (a j).isNil = false) →
      (∀ i, WellFormed (a i)) → WellFormed (.arraytier a)

/-! ## Basic facts on nodes -/

theorem isNil_iff {t : Tier} : t.isNil = true ↔ t = .nil := by
  cases t <;> simp [Tier.isNil]

theorem isNil_false_iff {t : Tier} : t.isNil = false ↔ t ≠ .nil := by
  cases t <;> simp [Tier.isNil]

theorem childOrFresh_isNil (el : Tier) (c1 : Byte) : (childOrFresh el c1).isNil = false := by
  unfold childOrFresh
  cases h : el.isNil
  · simpa using h
  · rfl

theorem mem_allBytes (c : Byte) : c ∈ allBytes := by
  simp [allBytes]

theorem get_eq {t : Tier} (h : t.isNil = false) (c : Byte) : t.get c = some (edge t c) := by
  cases t with
  | nil => simp [Tier.isNil] at h
  | zerotier => rfl
  | unitier b t => by_cases hb : b = c <;> simp [Tier.get, edge, hb]
  | arraytier a => rfl

theorem empty_eq {t : Tier} (h : t.isNil = false) : t.empty = some (emptyB t) := by
  cases t with
  | nil => simp [Tier.isNil] at h
  | zerotier => rfl
  | unitier b t => rfl
  | arraytier a => rfl

theorem edge_of_emptyB {t : Tier} (h : emptyB t = true) (c : Byte) : edge t c = .nil := by
  cases t with
  | nil => rfl
  | zerotier => rfl
  | unitier b t => simp [emptyB] at h
  | arraytier a =>
      simp only [emptyB, List.all_eq_true] at h
      exact isNil_iff.mp (h c (mem_allBytes c))

theorem isNil_of_emptyB {t : Tier} (h : emptyB t = true) : t.isNil = false := by
  cases t <;> simp_all [emptyB, Tier.isNil]

theorem putEdge_isNil {t : Tier} (h : t.isNil = false) (c : Byte) (v : Tier) :
    (putEdge t c v).isNil = false := by
  cases t with
  | nil => simp [Tier.isNil] at h
  | zerotier => rfl
  | unitier b t => by_cases hb : b = c <;> simp [putEdge, hb, Tier.isNil]
  | arraytier a => rfl

theorem edge_putEdge {t : Tier} (h : t.isNil = false) (c d : Byte) (v : Tier) :
    edge (putEdge t c v) d = if d = c then v else edge t d := by
  cases t with
  | nil => simp [Tier.isNil] at h
  | zerotier =>
      by_cases hd : d = c
      · subst hd; simp [putEdge, edge]
      · have : ¬ c = d := fun e => hd e.symm
        simp [putEdge, edge, hd, this]
  | unitier b t =>
      by_cases hb : b = c
      · subst hb
        by_cases hd : d = b
        · subst hd; simp [putEdge, edge]
        · have : ¬ b = d := fun e => hd e.symm
          simp [putEdge, edge, hd, this]
      · by_cases hd : d = c
        · subst hd; simp [putEdge, edge, hb]
        · by_cases hdb : d = b
          · subst hdb; simp [putEdge, edge, hb, hd, Function.update]
          · have : ¬ b = d := fun e => hdb e.symm
            simp [putEdge, edge, hb, hd, hdb, this, Function.update, emptyArraytier]
  | arraytier a =>
      by_cases hd : d = c
      · subst hd; simp [putEdge, edge]
      · simp [putEdge, edge, hd, Function.update]

theorem emptyB_putEdge {t : Tier} (h : t.isNil = false) (c : Byte) {v : Tier}
    (hv : v.isNil = false) : emptyB (putEdge t c v) = false := by
  cases hE : emptyB (putEdge t c v) with
  | false => rfl
  | true =>
      have h1 := edge_of_emptyB hE c
      rw [edge_putEdge h] at h1
      simp only [if_true] at h1
      rw [h1] at hv
      simp [Tier.isNil] at hv

/-! ## The operations do not panic -/

theorem arraytierSet_one (recur : Tier → Option Tier) (a : Byte → Tier) (c : Byte)
    (sub : Tier) : arraytierSet recur a [c] sub = some (putEdge (.arraytier a) c sub) := by
  simp [arraytierSet, putEdge]

theorem arraytierSet_more (recur : Tier → Option Tier) (a : Byte → Tier) (c c1 : Byte)
    (r : List Byte) (sub v : Tier)
    (h : recur (childOrFresh (a c) c1) = some v) :
    arraytierSet recur a (c :: c1 :: r) sub = some (putEdge (.arraytier a) c v) := by
  cases hn : (a c).isNil
  · simp only [childOrFresh, hn] at h
    simp at h
    simp [arraytierSet, putEdge, hn, h]
  · simp only [childOrFresh, hn, if_true] at h
    simp [arraytierSet, putEdge, hn, h]

theorem unitierSet_one (recur : Tier → Option Tier) (b : Byte) (t : Tier) (c : Byte)
    (sub : Tier) : unitierSet recur b t [c] sub = some (putEdge (.unitier b t) c sub) := by
  by_cases hb : b = c
  · simp [unitierSet, putEdge, hb]
  · simp [unitierSet, putEdge, hb, arraytierSet_one]

theorem unitierSet_more (recur : Tier → Option Tier) (b : Byte) (t : Tier) (c c1 : Byte)
    (r : List Byte) (sub v : Tier)
    (h : recur (childOrFresh (edge (.unitier b t) c) c1) = some v) :
    unitierSet recur b t (c :: c1 :: r) sub = some (putEdge (.unitier b t) c v) := by
  by_cases hb : b = c
  · subst hb
    simp only [edge, if_true] at h
    cases hn : t.isNil
    · simp only [childOrFresh, hn] at h
      simp at h
      simp [unitierSet, putEdge, hn, h]
    · simp only [childOrFresh, hn, if_true] at h
      simp [unitierSet, putEdge, hn, h]
  · have h1 : unitierSet recur b t (c :: c1 :: r) sub
        = arraytierSet recur (Function.update emptyArraytier b t) (c :: c1 :: r) sub := by
      simp [unitierSet, hb]
    have hc : Function.update emptyArraytier b t c = Tier.nil := by
      have : ¬ c = b := fun e => hb e.symm
      simp [Function.update, this, emptyArraytier]
    rw [h1, arraytierSet_more recur _ c c1 r sub v]
    · simp [putEdge, hb]
    · simpa [hc, edge, hb] using h

theorem setP_isNil : ∀ (s : List Byte) (t sub : Tier), t.isNil = false →
    (setP t s sub).isNil = false
  | [], _, _, h => h
  | [c], t, sub, h => by simpa [setP] using putEdge_isNil h c sub
  | c :: c1 :: r, t, sub, h => by simpa [setP] using putEdge_isNil h c _

/-- On a non-nil node and a non-empty string, `set` returns the node `setP`. -/
theorem set_eq : ∀ (s : List Byte) (t sub : Tier), t.isNil = false → s ≠ [] →
    t.set s sub = some (setP t s sub)
  | [], _, _, _, hs => absurd rfl hs
  | [c], t, sub, h, _ => by
      cases t with
      | nil => simp [Tier.isNil] at h
      | zerotier => simp [Tier.set, setP, unitierSet_one, putEdge]
      | unitier b t => simp [Tier.set, setP, unitierSet_one]
      | arraytier a => simp [Tier.set, setP, arraytierSet_one]
  | c :: c1 :: r, t, sub, h, _ => by
      have ih : ∀ el : Tier, el.isNil = false →
          Tier.set el (c1 :: r) sub = some (setP el (c1 :: r) sub) :=
        fun el hel => set_eq (c1 :: r) el sub hel (by simp)
      cases t with
      | nil => simp [Tier.isNil] at h
      | zerotier =>
          have := unitierSet_more (fun el => Tier.set el (c1 :: r) sub) c .nil c c1 r sub
            (setP (childOrFresh (edge (.unitier c .nil) c) c1) (c1 :: r) sub)
            (ih _ (childOrFresh_isNil _ _))
          simpa [Tier.set, setP, edge, putEdge] using this
      | unitier b t =>
          have := unitierSet_more (fun el => Tier.set el (c1 :: r) sub) b t c c1 r sub
            (setP (childOrFresh (edge (.unitier b t) c) c1) (c1 :: r) sub)
            (ih _ (childOrFresh_isNil _ _))
          simpa [Tier.set, setP] using this
      | arraytier a =>
          have := arraytierSet_more (fun el => Tier.set el (c1 :: r) sub) a c c1 r sub
            (setP (childOrFresh (a c) c1) (c1 :: r) sub)
            (ih _ (childOrFresh_isNil _ _))
          simpa [Tier.set, setP, edge] using this

/-- On a non-nil node, `check` returns the pair `checkP`. -/
theorem check_eq : ∀ (x : List Byte) (t : Tier) (pre : List Byte), t.isNil = false →
    check t x pre = some (checkP t x pre)
  | [], t, pre, h => by simp [check, checkP, empty_eq h]
  | c :: r, t, pre, h => by
      by_cases hn : (edge t c).isNil = true
      · simp [check, checkP, get_eq h, empty_eq h, hn]
      · have hn1 : (edge t c).isNil = false := by simpa using hn
        simp [check, checkP, get_eq h, hn1, check_eq r (edge t c) (pre ++ [c]) hn1]

theorem walkLoop_eq (t : Tier) (h : t.isNil = false)
    (recur : Byte → List Byte → Option (List (List Byte)))
    (g : Byte → List Byte → List (List Byte)) (pre : List Byte) :
    ∀ is : List Byte,
      (∀ i ∈ is, (edge t i).isNil = false → recur i (pre ++ [i]) = some (g i (pre ++ [i]))) →
      walkLoop t recur pre is
        = some (is.flatMap fun i => if (edge t i).isNil then [pre ++ [i]] else g i (pre ++ [i]))
  | [], _ => rfl
  | i :: is, hr => by
      have ih := walkLoop_eq t h recur g pre is (fun j hj => hr j (List.mem_cons_of_mem _ hj))
      by_cases hn : (edge t i).isNil = true
      · simp [walkLoop, get_eq h, hn, ih]
      · have hn1 : (edge t i).isNil = false := by simpa using hn
        simp [walkLoop, get_eq h, hn1, ih, hr i (List.mem_cons_self _ _) hn1]

/-- The function `walkHelper` always returns, and gives to `fn` the strings `leaves`. -/
theorem walkHelper_eq_leaves : ∀ (t : Tier) (pre : List Byte),
    walkHelper t pre = some (leaves t pre)
  | .nil, _ => rfl
  | .zerotier, pre => by
      rw [walkHelper, walkLoop_eq .zerotier rfl _ (fun _ _ => []) pre allBytes]
      · simp [leaves, edge, Tier.isNil]
      · intro i _ hi; simp [edge, Tier.isNil] at hi
  | .unitier b t, pre => by
      rw [walkHelper, walkLoop_eq (.unitier b t) rfl _ (fun _ s => leaves t s) pre allBytes]
      · simp [leaves]
      · intro i _ _; exact walkHelper_eq_leaves t _
  | .arraytier a, pre => by
      rw [walkHelper, walkLoop_eq (.arraytier a) rfl _ (fun i s => leaves (a i) s) pre allBytes]
      · simp [leaves, edge]
      · intro i _ _; exact walkHelper_eq_leaves (a i) _

/-- The uniform reading of `leaves`: one step of the loop of `walkHelper` per byte. -/
theorem leaves_eq {t : Tier} (h : t.isNil = false) (pre : List Byte) :
    leaves t pre = allBytes.flatMap fun i =>
      if (edge t i).isNil then [pre ++ [i]] else leaves (edge t i) (pre ++ [i]) := by
  cases t with
  | nil => simp [Tier.isNil] at h
  | zerotier => simp [leaves, edge, Tier.isNil]
  | unitier b t =>
      simp only [leaves]
      congr 1
      funext i
      by_cases hb : b = i
      · simp [edge, hb]
      · simp [edge, hb, Tier.isNil]
  | arraytier a => simp [leaves, edge]

/-! ## The source equations of the dispatched methods -/

/-- The source text of `zerotier.set`: `u := &unitier{b: str[0]}; return u.set(str, subtier)`. -/
theorem zerotier_set (str : List Byte) (sub : Tier) :
    Tier.zerotier.set str sub = (str[0]?).bind fun s0 => (Tier.unitier s0 .nil).set str sub := by
  cases str <;> simp [Tier.set]

/-- The source text of `(*unitier).set`, the recursive calls being on `str[1:]`. -/
theorem unitier_set (b : Byte) (t : Tier) (str : List Byte) (sub : Tier) :
    (Tier.unitier b t).set str sub
      = unitierSet (fun el => el.set (str.drop 1) sub) b t str sub := by
  cases str <;> simp [Tier.set, unitierSet]

/-- The source text of `(*arraytier).set`, the recursive calls being on `str[1:]`. -/
theorem arraytier_set (a : Byte → Tier) (str : List Byte) (sub : Tier) :
    (Tier.arraytier a).set str sub
      = arraytierSet (fun el => el.set (str.drop 1) sub) a str sub := by
  cases str <;> simp [Tier.set, arraytierSet]

theorem walkLoop_congr (t : Tier) (r1 r2 : Byte → List Byte → Option (List (List Byte)))
    (pre : List Byte) (h : ∀ i, (edge t i).isNil = false → r1 i (pre ++ [i]) = r2 i (pre ++ [i])) :
    ∀ is : List Byte, walkLoop t r1 pre is = walkLoop t r2 pre is
  | [] => rfl
  | i :: is => by
      cases ht : t.isNil
      · cases hn : (edge t i).isNil
        · simp [walkLoop, get_eq ht, hn, h i hn, walkLoop_congr t r1 r2 pre h is]
        · simp [walkLoop, get_eq ht, hn, walkLoop_congr t r1 r2 pre h is]
      · rw [isNil_iff.mp ht]
        simp [walkLoop, Tier.get]

/-- The source text of `walkHelper`: nothing on nil, else the loop over the 256 byte
values with the recursive call on `tier.get(byte(i))`. -/
theorem walkHelper_eq (t : Tier) (pre : List Byte) :
    walkHelper t pre =
      if t.isNil then some []
      else walkLoop t (fun i s => (t.get i).bind fun subtier => walkHelper subtier s)
        pre allBytes := by
  cases t with
  | nil => rfl
  | zerotier =>
      rw [walkHelper, if_neg (by simp [Tier.isNil])]
      exact walkLoop_congr _ _ _ _ (fun i hi => by simp [edge, Tier.isNil] at hi) _
  | unitier b t =>
      rw [walkHelper, if_neg (by simp [Tier.isNil])]
      refine walkLoop_congr _ _ _ _ (fun i hi => ?_) _
      by_cases hb : b = i
      · simp [Tier.get, hb]
      · simp [edge, hb, Tier.isNil] at hi
  | arraytier a =>
      rw [walkHelper, if_neg (by simp [Tier.isNil])]
      exact walkLoop_congr _ _ _ _ (fun i _ => by simp [Tier.get]) _

/-! ## The methods of `Frontier` do not panic -/

theorem excludeP_top_isNil (f : Frontier) (c : Byte) (r : List Byte) :
    (excludeP f (c :: r)).top.isNil = false := by
  simp only [excludeP]
  exact setP_isNil _ _ _ (childOrFresh_isNil _ _)

/-- The method `Exclude` always returns, with the Frontier `excludeP`. -/
theorem Exclude_eq (f : Frontier) (str : List Byte) :
    f.Exclude str = some (excludeP f str) := by
  cases str with
  | nil => simp [Frontier.Exclude, excludeP]
  | cons c r =>
      have hs := set_eq (c :: r) _ .zerotier (childOrFresh_isNil f.top c) (by simp)
      simp only [childOrFresh] at hs
      simp [Frontier.Exclude, excludeP, childOrFresh, hs]

/-- A sequence of `Exclude` calls always returns, with the Frontier `excludeAllP`. -/
theorem excludeAll_eq : ∀ (l : List (List Byte)) (f : Frontier),
    f.excludeAll l = some (excludeAllP f l)
  | [], _ => rfl
  | s :: l, f => by
      simp [Frontier.excludeAll, Exclude_eq, excludeAllP, excludeAll_eq l (excludeP f s)]

/-- The method `Check` always returns, with the pair `CheckP`. -/
theorem Check_eq (f : Frontier) (str : List Byte) : f.Check str = some (CheckP f str) := by
  cases hn : f.top.isNil
  · cases he : emptyB f.top
    · simp [Frontier.Check, CheckP, hn, he, empty_eq hn, check_eq str f.top [] hn]
    · simp [Frontier.Check, CheckP, hn, he, empty_eq hn]
  · simp [Frontier.Check, CheckP, hn]

/-- The method `Walk` always returns, and gives to the callback the strings `leaves`. -/
theorem Walk_eq (f : Frontier) : f.Walk = some (leaves f.top []) :=
  walkHelper_eq_leaves f.top []

theorem excludeAllP_append (f : Frontier) (l1 l2 : List (List Byte)) :
    excludeAllP f (l1 ++ l2) = excludeAllP (excludeAllP f l1) l2 := by
  simp [excludeAllP, List.foldl_append]

/-! ## Paths in the trie -/

theorem descend_nil : ∀ p : List Byte, descend .nil p = .nil
  | [] => rfl
  | _ :: p => by simpa [descend, edge] using descend_nil p

theorem descend_append : ∀ (p q : List Byte) (t : Tier),
    descend t (p ++ q) = descend (descend t p) q
  | [], _, _ => rfl
  | c :: p, q, t => by simpa [descend] using descend_append p q (edge t c)

theorem descend_snoc (p : List Byte) (c : Byte) (t : Tier) :
    descend t (p ++ [c]) = edge (descend t p) c := by
  rw [descend_append]; rfl

theorem emptyB_nil : emptyB .nil = false := rfl

theorem descend_of_emptyB {t : Tier} (h : emptyB t = true) (c : Byte) (q : List Byte) :
    descend t (c :: q) = .nil := by
  simp [descend, edge_of_emptyB h, descend_nil]

theorem isNil_of_descend_cons {t : Tier} {c : Byte} {q : List Byte}
    (h : (descend t (c :: q)).isNil = false) : (edge t c).isNil = false := by
  cases hn : (edge t c).isNil
  · rfl
  · rw [descend, isNil_iff.mp hn, descend_nil] at h
    simp [Tier.isNil] at h

/-- If some prefix `p` of `x` leads to an empty node, `check` stops there: it returns the
path to that node and true. -/
theorem checkP_of_hit : ∀ (p x : List Byte) (t : Tier) (pre : List Byte),
    p <+: x → emptyB (descend t p) = true → checkP t x pre = (pre ++ p, true)
  | [], x, t, pre, _, h => by
      have h0 : emptyB t = true := h
      cases x with
      | nil => simp [checkP, h0]
      | cons c r => simp [checkP, h0, edge_of_emptyB h0, Tier.isNil]
  | c :: p, x, t, pre, hpx, h => by
      obtain ⟨r, rfl⟩ := hpx
      have hn : (edge t c).isNil = false := isNil_of_descend_cons (isNil_of_emptyB h)
      have := checkP_of_hit p (p ++ r) (edge t c) (pre ++ [c]) (List.prefix_append _ _) h
      simpa [checkP, hn] using this

/-- If `check` returns true, it stopped at an empty node, reached by a prefix of `x`,
and it returns the path to that node. -/
theorem hit_of_checkP : ∀ (x : List Byte) (t : Tier) (pre : List Byte),
    (checkP t x pre).2 = true →
    ∃ p, p <+: x ∧ emptyB (descend t p) = true ∧ checkP t x pre = (pre ++ p, true)
  | [], t, pre, h => ⟨[], List.prefix_refl _, by simpa [checkP] using h, by
      simp only [checkP] at h ⊢; simp [h]⟩
  | c :: r, t, pre, h => by
      cases hn : (edge t c).isNil
      · simp only [checkP, hn] at h
        obtain ⟨p, hp, he, hc⟩ := hit_of_checkP r (edge t c) (pre ++ [c]) (by simpa using h)
        refine ⟨c :: p, ?_, he, ?_⟩
        · obtain ⟨q, rfl⟩ := hp; exact ⟨q, rfl⟩
        · simpa [checkP, hn] using hc
      · simp only [checkP, hn, if_true] at h
        exact ⟨[], List.nil_prefix, h, by simp [checkP, hn, h]⟩

/-- The result of `check`: true exactly when a prefix of `x` leads to an empty node. -/
theorem checkP_snd_iff (x : List Byte) (t : Tier) (pre : List Byte) :
    (checkP t x pre).2 = true ↔ ∃ p, p <+: x ∧ emptyB (descend t p) = true :=
  ⟨fun h => let ⟨p, hp, he, _⟩ := hit_of_checkP x t pre h; ⟨p, hp, he⟩,
   fun ⟨p, hp, he⟩ => by rw [checkP_of_hit p x t pre hp he]⟩

/-! ## The trie after `set` -/

theorem setP_one (t : Tier) (c : Byte) (sub : Tier) : setP t [c] sub = putEdge t c sub := rfl

theorem setP_more (t : Tier) (c c1 : Byte) (r : List Byte) (sub : Tier) :
    setP t (c :: c1 :: r) sub
      = putEdge t c (setP (childOrFresh (edge t c) c1) (c1 :: r) sub) := rfl

theorem descend_childOrFresh (el : Tier) (c1 c : Byte) (q : List Byte) :
    descend (childOrFresh el c1) (c :: q) = descend el (c :: q) := by
  unfold childOrFresh
  cases hn : el.isNil
  · simp
  · rw [isNil_iff.mp hn]
    by_cases hc : c1 = c <;> simp [descend, edge, hc, descend_nil]

/-- After `set`, the path `s` leads to the installed subtree. -/
theorem descend_setP_append : ∀ (s r : List Byte) (t sub : Tier), t.isNil = false → s ≠ [] →
    descend (setP t s sub) (s ++ r) = descend sub r
  | [], _, _, _, _, hs => absurd rfl hs
  | [c], r, t, sub, h, _ => by
      simp [setP_one, descend, edge_putEdge h]
  | c :: c1 :: s, r, t, sub, h, _ => by
      have := descend_setP_append (c1 :: s) r (childOrFresh (edge t c) c1) sub
        (childOrFresh_isNil _ _) (by simp)
      simpa [setP_more, descend, edge_putEdge h] using this

/-- After `set` of a non-nil subtree, a proper prefix of `s` leads to a node that is not
empty. -/
theorem emptyB_descend_setP_proper : ∀ (p : List Byte) (d : Byte) (r : List Byte)
    (t sub : Tier), t.isNil = false → sub.isNil = false →
    emptyB (descend (setP t (p ++ d :: r) sub) p) = false
  | [], d, [], t, sub, h, hs => by
      simpa [setP_one, descend] using emptyB_putEdge h d hs
  | [], d, c1 :: r, t, sub, h, _ => by
      simpa [setP_more, descend] using
        emptyB_putEdge h d (setP_isNil (c1 :: r) _ sub (childOrFresh_isNil (edge t d) c1))
  | c :: p, d, r, t, sub, h, hs => by
      cases hp : p ++ d :: r with
      | nil => simp at hp
      | cons c1 s =>
          have := emptyB_descend_setP_proper p d r (childOrFresh (edge t c) c1) sub
            (childOrFresh_isNil _ _) hs
          rw [hp] at this
          have hd : descend (setP t (c :: c1 :: s) sub) (c :: p)
              = descend (setP (childOrFresh (edge t c) c1) (c1 :: s) sub) p := by
            simp [setP_more, descend, edge_putEdge h]
          rw [List.cons_append, hp, hd]
          exact this

/-- After `set`, a path that leaves `s` at a byte where they differ leads where it led
before. -/
theorem descend_setP_diverge : ∀ (p : List Byte) (a b : Byte) (s1 q1 : List Byte)
    (t sub : Tier), t.isNil = false → a ≠ b →
    descend (setP t (p ++ a :: s1) sub) (p ++ b :: q1) = descend t (p ++ b :: q1)
  | [], a, b, [], q1, t, sub, h, hab => by
      have : ¬ b = a := fun e => hab e.symm
      simp [setP_one, descend, edge_putEdge h, this]
  | [], a, b, c1 :: s1, q1, t, sub, h, hab => by
      have : ¬ b = a := fun e => hab e.symm
      simp [setP_more, descend, edge_putEdge h, this]
  | c :: p, a, b, s1, q1, t, sub, h, hab => by
      cases hp : p ++ a :: s1 with
      | nil => simp at hp
      | cons c1 s =>
          have ih := descend_setP_diverge p a b s1 q1 (childOrFresh (edge t c) c1) sub
            (childOrFresh_isNil _ _) hab
          rw [hp] at ih
          have hq : ∃ e q2, p ++ b :: q1 = e :: q2 := by
            cases p with
            | nil => exact ⟨b, q1, rfl⟩
            | cons e p2 => exact ⟨e, p2 ++ b :: q1, rfl⟩
          obtain ⟨e, q2, hq⟩ := hq
          rw [hq, descend_childOrFresh] at ih
          rw [List.cons_append, List.cons_append, hp, hq]
          simpa [setP_more, descend, edge_putEdge h] using ih

/-- Two byte strings: one extends the other, or they differ at a first byte. -/
theorem prefix_trichotomy : ∀ s q : List Byte,
    (∃ r, q = s ++ r) ∨ (∃ d r, s = q ++ d :: r) ∨
    (∃ p a b s1 q1, a ≠ b ∧ s = p ++ a :: s1 ∧ q = p ++ b :: q1)
  | [], q => Or.inl ⟨q, rfl⟩
  | a :: s, [] => Or.inr (Or.inl ⟨a, s, rfl⟩)
  | a :: s, b :: q => by
      by_cases hab : a = b
      · subst hab
        rcases prefix_trichotomy s q with ⟨r, rfl⟩ | ⟨d, r, rfl⟩ | ⟨p, x, y, s1, q1, hxy, rfl, rfl⟩
        · exact Or.inl ⟨r, rfl⟩
        · exact Or.inr (Or.inl ⟨d, r, rfl⟩)
        · exact Or.inr (Or.inr ⟨a :: p, x, y, s1, q1, hxy, rfl, rfl⟩)
      · exact Or.inr (Or.inr ⟨[], a, b, s, q, hab, rfl, rfl⟩)

/-- The empty nodes after `set(s, zerotier{})`: the node at `s`, and the empty nodes of
before on the paths that neither extend `s` nor are extended by `s`. -/
theorem emptyB_descend_setP (t : Tier) (h : t.isNil = false) (s : List Byte) (hs : s ≠ [])
    (q : List Byte) :
    emptyB (descend (setP t s .zerotier) q) = true ↔
      q = s ∨ (¬ s <+: q ∧ ¬ q <+: s ∧ emptyB (descend t q) = true) := by
  rcases prefix_trichotomy s q with ⟨r, rfl⟩ | ⟨d, r, rfl⟩ | ⟨p, a, b, s1, q1, hab, rfl, rfl⟩
  · rw [descend_setP_append s r t _ h hs]
    cases r with
    | nil => simp [descend, emptyB]
    | cons c r =>
        have : ¬ (s ++ c :: r = s) := by
          intro e
          have := congrArg List.length e
          simp at this
        simp [descend, edge, descend_nil, emptyB, this]
  · rw [emptyB_descend_setP_proper q d r t .zerotier h rfl]
    constructor
    · intro h1; simp at h1
    · rintro (h1 | ⟨_, h2, _⟩)
      · have := congrArg List.length h1
        simp at this
      · exact absurd (List.prefix_append _ _) h2
  · rw [descend_setP_diverge p a b s1 q1 t _ h hab]
    have hne : p ++ b :: q1 ≠ p ++ a :: s1 := by
      intro e
      have := List.append_cancel_left e
      simp at this
      exact hab this.1.symm
    have hnp : ¬ (p ++ a :: s1) <+: (p ++ b :: q1) := by
      rintro ⟨r, hr⟩
      rw [List.append_assoc] at hr
      have := List.append_cancel_left hr
      simp at this
      exact hab this.1
    have hnq : ¬ (p ++ b :: q1) <+: (p ++ a :: s1) := by
      rintro ⟨r, hr⟩
      rw [List.append_assoc] at hr
      have := List.append_cancel_left hr
      simp at this
      exact hab this.1.symm
    simp [hne, hnp, hnq]

/-! ## `Check` after `Exclude` -/

theorem emptyB_excludeP_top (f : Frontier) (c : Byte) (r : List Byte) :
    emptyB (excludeP f (c :: r)).top = false := by
  have := emptyB_descend_setP_proper [] c r (childOrFresh f.top c) .zerotier
    (childOrFresh_isNil _ _) rfl
  simpa [excludeP, descend] using this

theorem CheckP_excludeP (f : Frontier) (c : Byte) (r x : List Byte) :
    CheckP (excludeP f (c :: r)) x = checkP (excludeP f (c :: r)).top x [] := by
  simp [CheckP, excludeP_top_isNil, emptyB_excludeP_top]

/-- After `Exclude(s)` on any Frontier, `Check` of an extension of `s` returns `(s, true)`. -/
theorem CheckP_excludeP_append (f : Frontier) (s t : List Byte) (hs : s ≠ []) :
    CheckP (excludeP f s) (s ++ t) = (s, true) := by
  cases s with
  | nil => exact absurd rfl hs
  | cons c r =>
      rw [CheckP_excludeP, checkP_of_hit (c :: r) _ _ [] (List.prefix_append _ _)]
      · rfl
      · have := descend_setP_append (c :: r) [] (childOrFresh f.top c) .zerotier
          (childOrFresh_isNil _ _) (by simp)
        simp only [List.append_nil] at this
        show emptyB (descend (setP (childOrFresh f.top c) (c :: r) .zerotier) (c :: r)) = true
        rw [this]
        rfl

/-- C1: on a Frontier reached from the empty one by any sequence of `Exclude` calls,
right after `Exclude(s)` with `s` non-empty, `Check(s ++ t)` returns the prefix `s`
and true, for every `t`. -/
theorem C1_check_after_exclude (l : List (List Byte)) (s t : List Byte) (hs : s ≠ []) :
    ∃ f f1, Frontier.new.excludeAll l = some f ∧ f.Exclude s = some f1 ∧
      f1.Check (s ++ t) = some (s, true) :=
  ⟨excludeAllP Frontier.new l, excludeP (excludeAllP Frontier.new l) s,
    excludeAll_eq l _, Exclude_eq _ s, by rw [Check_eq, CheckP_excludeP_append _ s t hs]⟩

/-- C1 at the excludes "ba", then `Exclude("ab")` and `Check("abc")`. -/
theorem C1_check_after_exclude_witness :
    ([97, 98] : List Byte) ≠ [] ∧
    ∃ f f1, Frontier.new.excludeAll [[98, 97]] = some f ∧ f.Exclude [97, 98] = some f1 ∧
      f1.Check ([97, 98] ++ [99]) = some ([97, 98], true) :=
  ⟨by decide, C1_check_after_exclude [[98, 97]] [97, 98] [99] (by decide)⟩

theorem emptyB_descend_childOrFresh (el : Tier) (c : Byte) (q : List Byte) :
    emptyB (descend (childOrFresh el c) q) = emptyB (descend el q) := by
  cases q with
  | nil =>
      unfold childOrFresh
      cases hn : el.isNil
      · simp
      · rw [isNil_iff.mp hn]; rfl
  | cons d q => rw [descend_childOrFresh]

/-- The empty nodes of the trie after `Exclude(s)`, `s` non-empty. -/
theorem emptyB_descend_excludeP (f : Frontier) (s : List Byte) (hs : s ≠ []) (q : List Byte) :
    emptyB (descend (excludeP f s).top q) = true ↔
      q = s ∨ (¬ s <+: q ∧ ¬ q <+: s ∧ emptyB (descend f.top q) = true) := by
  cases s with
  | nil => exact absurd rfl hs
  | cons c r =>
      have := emptyB_descend_setP (childOrFresh f.top c) (childOrFresh_isNil _ _) (c :: r) hs q
      rw [emptyB_descend_childOrFresh] at this
      exact this

theorem excludeP_nil (f : Frontier) : excludeP f [] = f := rfl

theorem excludeAllP_cons (f : Frontier) (s : List Byte) (l : List (List Byte)) :
    excludeAllP f (s :: l) = excludeAllP (excludeP f s) l := rfl

/-- A root that is present and not empty. -/
theorem rooted_excludeP (f : Frontier) (s : List Byte)
    (h : s ≠ [] ∨ (f.top.isNil = false ∧ emptyB f.top = false)) :
    (excludeP f s).top.isNil = false ∧ emptyB (excludeP f s).top = false := by
  cases s with
  | nil =>
      rcases h with h | h
      · exact absurd rfl h
      · exact h
  | cons c r => exact ⟨excludeP_top_isNil f c r, emptyB_excludeP_top f c r⟩

/-- Once a non-empty string was excluded, the root is present and not empty. -/
theorem rooted_excludeAllP : ∀ (l : List (List Byte)) (f : Frontier),
    ((∃ s ∈ l, s ≠ []) ∨ (f.top.isNil = false ∧ emptyB f.top = false)) →
    (excludeAllP f l).top.isNil = false ∧ emptyB (excludeAllP f l).top = false
  | [], f, h => by
      rcases h with ⟨s, hs, _⟩ | h
      · simp at hs
      · exact h
  | s :: l, f, h => by
      rw [excludeAllP_cons]
      apply rooted_excludeAllP l
      by_cases hs : s = []
      · subst hs
        rcases h with ⟨s1, hs1, hne⟩ | h
        · rcases List.mem_cons.mp hs1 with e | e
          · exact absurd e hne
          · exact Or.inl ⟨s1, e, hne⟩
        · exact Or.inr h
      · exact Or.inr (rooted_excludeP f s (Or.inl hs))

theorem CheckP_of_rooted {f : Frontier} (h : f.top.isNil = false ∧ emptyB f.top = false)
    (x : List Byte) : CheckP f x = checkP f.top x [] := by
  simp [CheckP, h.1, h.2]

/-- Excluding non-empty strings none of which is a proper prefix of another: the empty
nodes of the trie are exactly at the excluded strings. -/
theorem emptyB_descend_excludeAllP : ∀ (l l0 : List (List Byte)) (f : Frontier),
    (∀ q, emptyB (descend f.top q) = true ↔ q ∈ l0) →
    (∀ s ∈ l, s ≠ []) →
    (∀ a ∈ l0 ++ l, ∀ b ∈ l0 ++ l, a <+: b → a = b) →
    ∀ q, emptyB (descend (excludeAllP f l).top q) = true ↔ q ∈ l0 ++ l
  | [], l0, f, h0, _, _ => by simpa [excludeAllP] using h0
  | s :: l, l0, f, h0, hne, hpf => by
      have hs : s ≠ [] := hne s (List.mem_cons_self _ _)
      have hsm : s ∈ l0 ++ s :: l := by simp
      have step : ∀ q, emptyB (descend (excludeP f s).top q) = true ↔ q ∈ l0 ++ [s] := by
        intro q
        rw [emptyB_descend_excludeP f s hs q, h0 q]
        constructor
        · rintro (h | ⟨_, _, h⟩)
          · simp [h]
          · simp [h]
        · intro h
          rcases List.mem_append.mp h with h | h
          · have hqm : q ∈ l0 ++ s :: l := List.mem_append_left _ h
            by_cases e : q = s
            · exact Or.inl e
            · refine Or.inr ⟨fun hp => e (hpf s hsm q hqm hp).symm,
                fun hp => e (hpf q hqm s hsm hp), h⟩
          · exact Or.inl (by simpa using h)
      have := emptyB_descend_excludeAllP l (l0 ++ [s]) (excludeP f s) step
        (fun a ha => hne a (List.mem_cons_of_mem _ ha)) (by simpa using hpf)
      simpa [excludeAllP_cons] using this

/-- C3: after excluding, in list order on an empty Frontier, a non-empty list of
non-empty strings none of which is a proper prefix of another, `Check(x)` reports true
exactly when some excluded string is a prefix of `x`, and it then returns that string. -/
theorem C3_check_iff_excluded_prefix (l : List (List Byte)) (hl : l ≠ [])
    (hne : ∀ s ∈ l, s ≠ []) (hpf : ∀ a ∈ l, ∀ b ∈ l, a <+: b → a = b) (x : List Byte) :
    ∃ f r, Frontier.new.excludeAll l = some f ∧ f.Check x = some r ∧
      (r.2 = true ↔ ∃ s ∈ l, s <+: x) ∧ (∀ s ∈ l, s <+: x → r = (s, true)) := by
  have hr : (excludeAllP Frontier.new l).top.isNil = false ∧
      emptyB (excludeAllP Frontier.new l).top = false := by
    apply rooted_excludeAllP
    cases l with
    | nil => exact absurd rfl hl
    | cons s l => exact Or.inl ⟨s, List.mem_cons_self _ _, hne s (List.mem_cons_self _ _)⟩
  have he := emptyB_descend_excludeAllP l [] Frontier.new
    (fun q => by simp [Frontier.new, descend_nil, emptyB]) hne (by simpa using hpf)
  simp only [List.nil_append] at he
  refine ⟨_, _, excludeAll_eq l _, Check_eq _ x, ?_, ?_⟩
  · rw [CheckP_of_rooted hr, checkP_snd_iff]
    constructor
    · rintro ⟨p, hp, h⟩
      exact ⟨p, (he p).mp h, hp⟩
    · rintro ⟨s, hs, hp⟩
      exact ⟨s, hp, (he s).mpr hs⟩
  · intro s hs hp
    rw [CheckP_of_rooted hr, checkP_of_hit s x _ [] hp ((he s).mpr hs)]
    rfl

/-- C3 at the excludes "ab", "ba" and `Check("bac")`. -/
theorem C3_check_iff_excluded_prefix_witness :
    ∃ f r, Frontier.new.excludeAll [[97, 98], [98, 97]] = some f ∧
      f.Check [98, 97, 99] = some r ∧
      (r.2 = true ↔ ∃ s ∈ ([[97, 98], [98, 97]] : List (List Byte)), s <+: [98, 97, 99]) ∧
      (∀ s ∈ ([[97, 98], [98, 97]] : List (List Byte)), s <+: [98, 97, 99] → r = (s, true)) :=
  C3_check_iff_excluded_prefix [[97, 98], [98, 97]] (by decide) (by decide) (by decide)
    [98, 97, 99]

/-! ## Monotonicity, idempotence, the fresh Frontier -/

/-- C6, refuted as stated: after `Exclude("ab")`, `Check("ba")` reports false, and after
the further `Exclude("ba")` it reports true. -/
theorem C6_counterexample :
    ∃ f f1, Frontier.new.excludeAll [[97, 98]] = some f ∧
      f.Check [98, 97] = some ([], false) ∧
      f.Exclude [98, 97] = some f1 ∧ f1.Check [98, 97] = some ([98, 97], true) :=
  ⟨excludeAllP Frontier.new [[97, 98]], excludeP (excludeAllP Frontier.new [[97, 98]]) [98, 97],
    excludeAll_eq _ _, by decide, Exclude_eq _ _,
    (Check_eq _ _).trans (congrArg some
      (CheckP_excludeP_append (excludeAllP Frontier.new [[97, 98]]) [98, 97] [] (by decide)))⟩

theorem rooted_of_CheckP_false {f : Frontier} {p : List Byte} (h : (CheckP f p).2 = false) :
    f.top.isNil = false ∧ emptyB f.top = false := by
  cases hn : f.top.isNil
  · cases he : emptyB f.top
    · exact ⟨rfl, rfl⟩
    · simp [CheckP, hn, he] at h
  · simp [CheckP, hn] at h

/-- C6, amended: on a Frontier reached by `Exclude` calls, if `Check(p)` reports false,
then after a further `Exclude(s)` it reports true exactly when `s` is a non-empty prefix
of `p` (and then returns `s`); otherwise it still reports false. -/
theorem C6_check_false_stays_false (l : List (List Byte)) (p s : List Byte) (f : Frontier)
    (r : List Byte × Bool) (hf : Frontier.new.excludeAll l = some f)
    (hr : f.Check p = some r) (h : r.2 = false) :
    ∃ f1 r1, f.Exclude s = some f1 ∧ f1.Check p = some r1 ∧
      (r1.2 = true ↔ s ≠ [] ∧ s <+: p) ∧ (r1.2 = true → r1.1 = s) := by
  refine ⟨_, _, Exclude_eq _ s, Check_eq _ p, ?_⟩
  clear hf
  rw [Check_eq] at hr
  have hr0 : CheckP f p = r := Option.some.inj hr
  subst hr0
  have hr := rooted_of_CheckP_false h
  rw [CheckP_of_rooted hr] at h
  have hno : ∀ q, q <+: p → emptyB (descend f.top q) = true → False := by
    intro q hq he
    have := (checkP_snd_iff p f.top []).mpr ⟨q, hq, he⟩
    rw [h] at this
    exact Bool.false_ne_true this
  by_cases hs : s = []
  · subst hs
    rw [excludeP_nil, CheckP_of_rooted hr, h]
    simp
  · have hr1 := rooted_excludeP f s (Or.inl hs)
    rw [CheckP_of_rooted hr1]
    have key : (checkP (excludeP f s).top p []).2 = true ↔ s <+: p := by
      rw [checkP_snd_iff]
      constructor
      · rintro ⟨q, hq, he⟩
        rcases (emptyB_descend_excludeP f s hs q).mp he with e | ⟨_, _, e⟩
        · exact e ▸ hq
        · exact (hno q hq e).elim
      · intro hp
        exact ⟨s, hp, (emptyB_descend_excludeP f s hs s).mpr (Or.inl rfl)⟩
    refine ⟨by simpa [hs] using key, fun h1 => ?_⟩
    rw [checkP_of_hit s p _ [] (key.mp h1)
      ((emptyB_descend_excludeP f s hs s).mpr (Or.inl rfl))]
    rfl

/-- C6, amended, at the Frontier after `Exclude("ab")`, with `p = "ba"` and the further
`Exclude("bc")`. -/
theorem C6_check_false_stays_false_witness :
    ∃ f1 r1, (excludeAllP Frontier.new [[97, 98]]).Exclude [98, 99] = some f1 ∧
      f1.Check [98, 97] = some r1 ∧
      (r1.2 = true ↔ ([98, 99] : List Byte) ≠ [] ∧ ([98, 99] : List Byte) <+: [98, 97]) ∧
      (r1.2 = true → r1.1 = [98, 99]) :=
  C6_check_false_stays_false [[97, 98]] [98, 97] [98, 99] (excludeAllP Frontier.new [[97, 98]])
    ([], false) (excludeAll_eq _ _) (by decide) rfl

theorem putEdge_putEdge {t : Tier} (h : t.isNil = false) (c : Byte) (v w : Tier) :
    putEdge (putEdge t c v) c w = putEdge t c w := by
  cases t with
  | nil => simp [Tier.isNil] at h
  | zerotier => simp [putEdge]
  | unitier b t =>
      by_cases hb : b = c
      · simp [putEdge, hb]
      · simp [putEdge, hb]
  | arraytier a => simp [putEdge]

theorem childOrFresh_of_isNil {el : Tier} (h : el.isNil = false) (c : Byte) :
    childOrFresh el c = el := by
  simp [childOrFresh, h]

/-- Installing the same subtree twice at `s` is installing it once. -/
theorem setP_setP : ∀ (s : List Byte) (t sub : Tier), t.isNil = false →
    setP (setP t s sub) s sub = setP t s sub
  | [], _, _, _ => rfl
  | [c], t, sub, h => by simp [setP_one, putEdge_putEdge h]
  | c :: c1 :: r, t, sub, h => by
      have hX := setP_isNil (c1 :: r) _ sub (childOrFresh_isNil (edge t c) c1)
      have ih := setP_setP (c1 :: r) (childOrFresh (edge t c) c1) sub (childOrFresh_isNil _ _)
      rw [setP_more t, setP_more (putEdge t c _), edge_putEdge h, if_pos rfl,
        childOrFresh_of_isNil hX, ih, putEdge_putEdge h]

/-- `Exclude(s)` twice leaves the Frontier that `Exclude(s)` once leaves. -/
theorem excludeP_excludeP (f : Frontier) (s : List Byte) :
    excludeP (excludeP f s) s = excludeP f s := by
  cases s with
  | nil => rfl
  | cons c r =>
      have hn := excludeP_top_isNil f c r
      show Frontier.mk (setP (childOrFresh (excludeP f (c :: r)).top c) (c :: r) .zerotier)
        = excludeP f (c :: r)
      rw [childOrFresh_of_isNil hn]
      show Frontier.mk (setP (setP (childOrFresh f.top c) (c :: r) .zerotier) (c :: r) .zerotier)
        = Frontier.mk (setP (childOrFresh f.top c) (c :: r) .zerotier)
      rw [setP_setP _ _ _ (childOrFresh_isNil _ _)]

/-- C7: on a Frontier reached by `Exclude` calls, `Exclude(s); Exclude(s)` leaves a
Frontier with the same `Check` result on every input and the same `Walk` sequence as a
single `Exclude(s)`. -/
theorem C7_exclude_idempotent (l : List (List Byte)) (s : List Byte) :
    ∃ f f1 f2, Frontier.new.excludeAll l = some f ∧ f.Exclude s = some f1 ∧
      f1.Exclude s = some f2 ∧ (∀ x, f2.Check x = f1.Check x) ∧ f2.Walk = f1.Walk :=
  ⟨excludeAllP Frontier.new l, excludeP (excludeAllP Frontier.new l) s,
    excludeP (excludeAllP Frontier.new l) s, excludeAll_eq l _, Exclude_eq _ s,
    by rw [Exclude_eq, excludeP_excludeP], fun _ => rfl, rfl⟩

theorem excludeAllP_of_all_nil : ∀ (l : List (List Byte)) (f : Frontier),
    (∀ s ∈ l, s = []) → excludeAllP f l = f
  | [], _, _ => rfl
  | s :: l, f, h => by
      rw [excludeAllP_cons, h s (List.mem_cons_self _ _), excludeP_nil]
      exact excludeAllP_of_all_nil l f (fun a ha => h a (List.mem_cons_of_mem _ ha))

/-- C8: on a fresh Frontier, also after any number of `Exclude` calls of the empty
string, `Check(x)` returns the empty prefix and true for every `x`. -/
theorem C8_check_fresh (l : List (List Byte)) (h : ∀ s ∈ l, s = []) (x : List Byte) :
    Frontier.new.Check x = some ([], true) ∧
    ∃ f, Frontier.new.excludeAll l = some f ∧ f.Check x = some ([], true) :=
  ⟨rfl, Frontier.new, by rw [excludeAll_eq, excludeAllP_of_all_nil l _ h], rfl⟩

/-- C8 at two excludes of the empty string and `Check("abc")`. -/
theorem C8_check_fresh_witness :
    Frontier.new.Check [97, 98, 99] = some ([], true) ∧
    ∃ f, Frontier.new.excludeAll [[], []] = some f ∧ f.Check [97, 98, 99] = some ([], true) :=
  C8_check_fresh [[], []] (by decide) [97, 98, 99]

/-! ## The leaves given by `Walk` -/

/-- Induction on a node through its edges. -/
theorem tier_induction {P : Tier → Prop} (hnil : P .nil)
    (hstep : ∀ t, t.isNil = false → (∀ c, P (edge t c)) → P t) : ∀ t, P t := by
  intro t
  induction t with
  | nil => exact hnil
  | zerotier => exact hstep _ rfl (fun _ => hnil)
  | unitier b t ih =>
      refine hstep _ rfl (fun c => ?_)
      by_cases hb : b = c
      · simpa [edge, hb] using ih
      · simpa [edge, hb] using hnil
  | arraytier a ih => exact hstep _ rfl (fun c => ih c)

/-- The strings given to `fn` for the byte `i` of the loop of `walkHelper`. -/
theorem mem_leaves_step {t : Tier} (h : t.isNil = false) (pre q : List Byte) :
    q ∈ leaves t pre ↔
      ∃ i, q ∈ (if (edge t i).isNil then [pre ++ [i]] else leaves (edge t i) (pre ++ [i])) := by
  rw [leaves_eq h, List.mem_flatMap]
  exact ⟨fun ⟨i, _, hi⟩ => ⟨i, hi⟩, fun ⟨i, hi⟩ => ⟨i, mem_allBytes i, hi⟩⟩

/-- The leaves: the paths that leave the trie at their last byte. -/
theorem mem_leaves : ∀ (t : Tier) (pre q : List Byte),
    q ∈ leaves t pre ↔
      ∃ p c, q = pre ++ p ++ [c] ∧ (descend t p).isNil = false ∧
        (edge (descend t p) c).isNil = true := by
  intro t
  induction t using tier_induction with
  | hnil =>
      intro pre q
      simp [leaves, descend_nil, Tier.isNil]
  | hstep t h ih =>
      intro pre q
      rw [mem_leaves_step h]
      constructor
      · rintro ⟨i, hi⟩
        cases hn : (edge t i).isNil
        · rw [hn] at hi
          simp only [Bool.false_eq_true, if_false] at hi
          obtain ⟨p, c, rfl, h1, h2⟩ := (ih i _ _).mp hi
          exact ⟨i :: p, c, by simp, h1, h2⟩
        · rw [hn] at hi
          simp only [if_true, List.mem_singleton] at hi
          exact ⟨[], i, by simp [hi], h, hn⟩
      · rintro ⟨p, c, rfl, h1, h2⟩
        cases p with
        | nil =>
            refine ⟨c, ?_⟩
            have h2c : (edge t c).isNil = true := h2
            simp [h2c]
        | cons i p =>
            refine ⟨i, ?_⟩
            have hn := isNil_of_descend_cons h1
            rw [hn]
            simp only [Bool.false_eq_true, if_false]
            exact (ih i _ _).mpr ⟨p, c, by simp, h1, h2⟩

theorem bytesLt_append_left : ∀ (pre x y : List Byte),
    bytesLt (pre ++ x) (pre ++ y) = bytesLt x y
  | [], _, _ => rfl
  | a :: pre, x, y => by simp [bytesLt, bytesLt_append_left pre x y]

theorem bytesLt_cons_of_lt {i j : Byte} (h : i < j) (x y : List Byte) :
    bytesLt (i :: x) (j :: y) = true := by
  simp [bytesLt, h]

theorem bytesLt_irrefl : ∀ x : List Byte, bytesLt x x = false
  | [] => rfl
  | a :: x => by simp [bytesLt, bytesLt_irrefl x]

/-- Every leaf given for the byte `i` starts with `pre ++ [i]`. -/
theorem leaves_shape (t : Tier) (pre q : List Byte) (h : q ∈ leaves t pre) :
    ∃ i r, q = pre ++ i :: r := by
  obtain ⟨p, c, rfl, _, _⟩ := (mem_leaves t pre q).mp h
  cases p with
  | nil => exact ⟨c, [], by simp⟩
  | cons i p => exact ⟨i, p ++ [c], by simp⟩

/-- The leaves come in strictly ascending lexicographic order. -/
theorem leaves_sorted : ∀ (t : Tier) (pre : List Byte),
    (leaves t pre).Pairwise (fun x y => bytesLt x y = true) := by
  intro t
  induction t using tier_induction with
  | hnil => intro pre; simp [leaves]
  | hstep t h ih =>
      intro pre
      rw [leaves_eq h, List.pairwise_flatMap]
      constructor
      · intro i _
        cases hn : (edge t i).isNil
        · simpa using ih i (pre ++ [i])
        · simp
      · refine (List.pairwise_lt_finRange 256).imp ?_
        intro i j hij x hx y hy
        have hx1 : ∃ r, x = pre ++ i :: r := by
          cases hn : (edge t i).isNil
          · rw [hn] at hx
            simp only [Bool.false_eq_true, if_false] at hx
            obtain ⟨k, r, hk⟩ := leaves_shape _ _ _ hx
            exact ⟨k :: r, by simp [hk]⟩
          · rw [hn] at hx
            simp only [if_true, List.mem_singleton] at hx
            exact ⟨[], hx⟩
        have hy1 : ∃ r, y = pre ++ j :: r := by
          cases hn : (edge t j).isNil
          · rw [hn] at hy
            simp only [Bool.false_eq_true, if_false] at hy
            obtain ⟨k, r, hk⟩ := leaves_shape _ _ _ hy
            exact ⟨k :: r, by simp [hk]⟩
          · rw [hn] at hy
            simp only [if_true, List.mem_singleton] at hy
            exact ⟨[], hy⟩
        obtain ⟨rx, rfl⟩ := hx1
        obtain ⟨ry, rfl⟩ := hy1
        rw [bytesLt_append_left]
        exact bytesLt_cons_of_lt hij _ _

theorem leaves_nodup (t : Tier) (pre : List Byte) : (leaves t pre).Nodup :=
  (leaves_sorted t pre).imp (fun {x y} hxy e => by
    rw [e, bytesLt_irrefl] at hxy
    exact Bool.false_ne_true hxy)

/-- C4: on every Frontier reached by `Exclude` calls, the sequence of leaves that `Walk`
gives to its callback is strictly ascending in lexicographic byte order (every leaf is
smaller than every later one), so it has no duplicate. -/
theorem C4_walk_strictly_ascending (l : List (List Byte)) :
    ∃ f ls, Frontier.new.excludeAll l = some f ∧ f.Walk = some ls ∧
      ls.Pairwise (fun x y => bytesLt x y = true) ∧ ls.Nodup :=
  ⟨_, _, excludeAll_eq l _, Walk_eq _, leaves_sorted _ _, leaves_nodup _ _⟩

/-! ## The shape of the nodes is kept by `Exclude` -/

theorem wellFormed_edge {t : Tier} (h : WellFormed t) (c : Byte) : WellFormed (edge t c) := by
  cases h with
  | nil => exact WellFormed.nil
  | zerotier => exact WellFormed.nil
  | unitier b t hn ht =>
      by_cases hb : b = c
      · simpa [edge, hb] using ht
      · simpa [edge, hb] using WellFormed.nil
  | arraytier a h2 ha => exact ha c

theorem wellFormed_descend : ∀ (p : List Byte) {t : Tier}, WellFormed t →
    WellFormed (descend t p)
  | [], _, h => h
  | c :: p, _, h => wellFormed_descend p (wellFormed_edge h c)

theorem wellFormed_putEdge {t : Tier} (h : WellFormed t) (hn : t.isNil = false) (c : Byte)
    {v : Tier} (hv : WellFormed v) (hvn : v.isNil = false) : WellFormed (putEdge t c v) := by
  cases h with
  | nil => simp [Tier.isNil] at hn
  | zerotier => exact WellFormed.unitier c v hvn hv
  | unitier b t htn ht =>
      by_cases hb : b = c
      · simpa [putEdge, hb] using WellFormed.unitier c v hvn hv
      · have hcb : ¬ c = b := fun e => hb e.symm
        simp only [putEdge, hb, if_false]
        refine WellFormed.arraytier _ ⟨b, c, hb, by simp [Function.update, hb, htn],
          by simp [Function.update, hvn]⟩ (fun i => ?_)
        by_cases hi : i = c
        · subst hi; simpa [Function.update] using hv
        · by_cases hib : i = b
          · subst hib; simpa [Function.update, hi] using ht
          · simpa [Function.update, hi, hib, emptyArraytier] using WellFormed.nil
  | arraytier a h2 ha =>
      obtain ⟨i, j, hij, hi, hj⟩ := h2
      refine WellFormed.arraytier _ ⟨i, j, hij, ?_, ?_⟩ (fun k => ?_)
      · by_cases e : i = c
        · subst e; simpa [Function.update] using hvn
        · simpa [Function.update, e] using hi
      · by_cases e : j = c
        · subst e; simpa [Function.update] using hvn
        · simpa [Function.update, e] using hj
      · by_cases e : k = c
        · subst e; simpa [Function.update] using hv
        · simpa [Function.update, e] using ha k

/-- The nodes on which `set` is called: a well-formed node, or the node `&unitier{b: str[0]}`
made just before the call. -/
theorem wellFormed_setP : ∀ (s : List Byte) (t sub : Tier), t.isNil = false →
    (WellFormed t ∨ ∃ c r, s = c :: r ∧ t = .unitier c .nil) →
    WellFormed sub → sub.isNil = false → s ≠ [] → WellFormed (setP t s sub)
  | [], _, _, _, _, _, _, hs => absurd rfl hs
  | [c], t, sub, hn, ht, hsub, hsn, _ => by
      rcases ht with ht | ⟨c0, r, e, rfl⟩
      · exact wellFormed_putEdge ht hn c hsub hsn
      · obtain ⟨rfl, _⟩ := List.cons.inj e
        simpa [setP_one, putEdge] using WellFormed.unitier c sub hsn hsub
  | c :: c1 :: r, t, sub, hn, ht, hsub, hsn, _ => by
      have hX : WellFormed (setP (childOrFresh (edge t c) c1) (c1 :: r) sub) := by
        apply wellFormed_setP (c1 :: r) _ sub (childOrFresh_isNil _ _) _ hsub hsn (by simp)
        cases he : (edge t c).isNil
        · left
          rw [childOrFresh_of_isNil he]
          rcases ht with ht | ⟨c0, r0, e, rfl⟩
          · exact wellFormed_edge ht c
          · obtain ⟨rfl, _⟩ := List.cons.inj e
            simp [edge, Tier.isNil] at he
        · right
          exact ⟨c1, r, rfl, by simp [childOrFresh, he]⟩
      have hXn := setP_isNil (c1 :: r) _ sub (childOrFresh_isNil (edge t c) c1)
      rw [setP_more]
      rcases ht with ht | ⟨c0, r0, e, rfl⟩
      · exact wellFormed_putEdge ht hn c hX hXn
      · obtain ⟨rfl, _⟩ := List.cons.inj e
        simpa [putEdge] using WellFormed.unitier c _ hXn hX

theorem wellFormed_excludeP (f : Frontier) (h : WellFormed f.top) (s : List Byte) :
    WellFormed (excludeP f s).top := by
  cases s with
  | nil => exact h
  | cons c r =>
      apply wellFormed_setP (c :: r) _ _ (childOrFresh_isNil _ _) _ WellFormed.zerotier rfl
        (by simp)
      cases hn : f.top.isNil
      · left; rw [childOrFresh_of_isNil hn]; exact h
      · right; exact ⟨c, r, rfl, by simp [childOrFresh, hn]⟩

theorem wellFormed_excludeAllP : ∀ (l : List (List Byte)) (f : Frontier),
    WellFormed f.top → WellFormed (excludeAllP f l).top
  | [], _, h => h
  | s :: l, f, h => wellFormed_excludeAllP l (excludeP f s) (wellFormed_excludeP f h s)

/-- In a well-formed trie, the empty nodes are the nodes without any edge. -/
theorem emptyB_iff_no_edge {t : Tier} (h : WellFormed t) (hn : t.isNil = false) :
    emptyB t = true ↔ ∀ b : Byte, (edge t b).isNil = true := by
  constructor
  · intro he b
    rw [edge_of_emptyB he b]; rfl
  · intro hb
    cases h with
    | nil => simp [Tier.isNil] at hn
    | zerotier => rfl
    | unitier b t htn ht =>
        have := hb b
        simp [edge, htn] at this
    | arraytier a h2 ha =>
        simp only [emptyB, List.all_eq_true]
        exact fun i _ => hb i

/-! ## `Check` and the leaves of `Walk` -/

theorem snoc_inj {p p1 : List Byte} {b c : Byte} (e : p ++ [b] = p1 ++ [c]) :
    p = p1 ∧ b = c := by
  have := List.append_inj' e rfl
  simpa using this

/-- C9, refuted as stated: after `Exclude("a")`, `Check("b")` reports false although the
leaf "b" given by `Walk` is a prefix of "b". -/
theorem C9_counterexample :
    ∃ f r ls, Frontier.new.excludeAll [[97]] = some f ∧ f.Check [98] = some r ∧
      f.Walk = some ls ∧ ¬ (r.2 = true ↔ ∃ leaf ∈ ls, leaf <+: [98]) := by
  refine ⟨_, _, _, excludeAll_eq _ _, Check_eq _ _, Walk_eq _, ?_⟩
  intro h
  have h1 : (CheckP (excludeAllP Frontier.new [[97]]) [98]).2 = false := by decide
  rw [h1] at h
  have h2 : ([98] : List Byte) ∈ leaves (excludeAllP Frontier.new [[97]]).top [] :=
    (mem_leaves _ _ _).mpr ⟨[], 98, rfl, by decide, by decide⟩
  exact Bool.false_ne_true (h.mpr ⟨[98], h2, List.prefix_refl _⟩)

/-- C9, amended: on a Frontier on which at least one non-empty string was excluded,
`Check(x)` reports true exactly when `x` has a prefix `p` all of whose one-byte
extensions `p ++ [b]` are leaves given by `Walk` (the node at `p` is a sentinel), and it
then returns `p`. -/
theorem C9_check_iff_all_extensions_leaves (l : List (List Byte)) (h : ∃ s ∈ l, s ≠ [])
    (x : List Byte) :
    ∃ f r ls, Frontier.new.excludeAll l = some f ∧ f.Check x = some r ∧ f.Walk = some ls ∧
      (r.2 = true ↔ ∃ p, p <+: x ∧ ∀ b : Byte, p ++ [b] ∈ ls) ∧
      (∀ p, p <+: x → (∀ b : Byte, p ++ [b] ∈ ls) → r = (p, true)) := by
  have hr := rooted_excludeAllP l Frontier.new (Or.inl h)
  have hw : WellFormed (excludeAllP Frontier.new l).top :=
    wellFormed_excludeAllP l _ WellFormed.nil
  have hf := excludeAll_eq l Frontier.new
  generalize excludeAllP Frontier.new l = f at hr hw hf
  have key : ∀ p, (∀ b : Byte, p ++ [b] ∈ leaves f.top []) ↔
      emptyB (descend f.top p) = true := by
    intro p
    constructor
    · intro hb
      have hn : (descend f.top p).isNil = false := by
        obtain ⟨p1, c, e, h1, _⟩ := (mem_leaves _ _ _).mp (hb 0)
        obtain ⟨e1, _⟩ := snoc_inj (by simpa using e)
        rw [e1]; exact h1
      rw [emptyB_iff_no_edge (wellFormed_descend p hw) hn]
      intro b
      obtain ⟨p1, c, e, _, h2⟩ := (mem_leaves _ _ _).mp (hb b)
      obtain ⟨e1, e2⟩ := snoc_inj (by simpa using e)
      rw [e1, e2]; exact h2
    · intro he b
      refine (mem_leaves _ _ _).mpr ⟨p, b, by simp, isNil_of_emptyB he, ?_⟩
      rw [edge_of_emptyB he b]; rfl
  refine ⟨f, _, _, hf, Check_eq _ x, Walk_eq _, ?_, ?_⟩
  · rw [CheckP_of_rooted hr, checkP_snd_iff]
    exact exists_congr fun p => and_congr_right fun _ => (key p).symm
  · intro p hp hb
    rw [CheckP_of_rooted hr, checkP_of_hit p x _ [] hp ((key p).mp hb)]
    rfl

/-- C9, amended, at the exclude "a" and `Check("ab")`. -/
theorem C9_check_iff_all_extensions_leaves_witness :
    ∃ f r ls, Frontier.new.excludeAll [[97]] = some f ∧ f.Check [97, 98] = some r ∧
      f.Walk = some ls ∧
      (r.2 = true ↔ ∃ p, p <+: [97, 98] ∧ ∀ b : Byte, p ++ [b] ∈ ls) ∧
      (∀ p, p <+: [97, 98] → (∀ b : Byte, p ++ [b] ∈ ls) → r = (p, true)) :=
  C9_check_iff_all_extensions_leaves [[97]] ⟨[97], by decide, by decide⟩ [97, 98]

/-! ## The leaves after a single `Exclude` -/

theorem length_flatMap_of_singletons {α : Type} (f : Byte → List α) : ∀ l : List Byte,
    (∀ i ∈ l, (f i).length = 1) → (l.flatMap f).length = l.length
  | [], _ => rfl
  | i :: l, h => by
      rw [List.flatMap_cons, List.length_append, h i (List.mem_cons_self _ _),
        length_flatMap_of_singletons f l (fun j hj => h j (List.mem_cons_of_mem _ hj))]
      simp [Nat.add_comm]

/-- A loop over the 256 byte values that gives one string for every byte but `c`. -/
theorem length_flatMap_allBytes {α : Type} (f : Byte → List α) (c : Byte)
    (h : ∀ i, i ≠ c → (f i).length = 1) :
    (allBytes.flatMap f).length = 255 + (f c).length := by
  obtain ⟨l1, l2, e⟩ := List.append_of_mem (mem_allBytes c)
  have hnd : (l1 ++ c :: l2).Nodup := e ▸ List.nodup_finRange 256
  have hlen : (l1 ++ c :: l2).length = 256 := by rw [← e]; simp [allBytes]
  have h1 : c ∉ l1 := fun hc =>
    (List.nodup_append.mp hnd).2.2 hc (List.mem_cons_self _ _)
  have h2 : c ∉ l2 := (List.nodup_cons.mp (List.nodup_append.mp hnd).2.1).1
  rw [e, List.flatMap_append, List.flatMap_cons, List.length_append, List.length_append,
    length_flatMap_of_singletons f l1 (fun i hi => h i (fun e1 => h1 (e1 ▸ hi))),
    length_flatMap_of_singletons f l2 (fun i hi => h i (fun e1 => h2 (e1 ▸ hi)))]
  simp only [List.length_append, List.length_cons] at hlen
  omega

theorem mem_leaves_zerotier (pre q : List Byte) :
    q ∈ leaves .zerotier pre ↔ ∃ b : Byte, q = pre ++ [b] := by
  simp only [leaves, List.mem_flatMap, List.mem_singleton]
  exact ⟨fun ⟨b, _, hb⟩ => ⟨b, hb⟩, fun ⟨b, hb⟩ => ⟨b, mem_allBytes b, hb⟩⟩

theorem length_leaves_zerotier (pre : List Byte) : (leaves .zerotier pre).length = 256 := by
  rw [leaves, length_flatMap_of_singletons (fun i => [pre ++ [i]]) allBytes (fun _ _ => rfl)]
  simp [allBytes]

theorem mem_leaves_unitier (c : Byte) {t : Tier} (ht : t.isNil = false) (pre q : List Byte) :
    q ∈ leaves (.unitier c t) pre ↔
      (∃ b : Byte, b ≠ c ∧ q = pre ++ [b]) ∨ q ∈ leaves t (pre ++ [c]) := by
  rw [@mem_leaves_step (.unitier c t) rfl]
  constructor
  · rintro ⟨i, hi⟩
    by_cases hc : c = i
    · subst hc
      right
      simpa [edge, ht] using hi
    · left
      refine ⟨i, fun e => hc e.symm, ?_⟩
      simpa [edge, hc, Tier.isNil] using hi
  · rintro (⟨b, hb, rfl⟩ | h)
    · refine ⟨b, ?_⟩
      have : ¬ c = b := fun e => hb e.symm
      simp [edge, this, Tier.isNil]
    · exact ⟨c, by simpa [edge, ht] using h⟩

theorem length_leaves_unitier (c : Byte) {t : Tier} (ht : t.isNil = false) (pre : List Byte) :
    (leaves (.unitier c t) pre).length = 255 + (leaves t (pre ++ [c])).length := by
  rw [@leaves_eq (.unitier c t) rfl, length_flatMap_allBytes _ c]
  · simp [edge, ht]
  · intro i hi
    have : ¬ c = i := fun e => hi e.symm
    simp [edge, this, Tier.isNil]

/-- The trie after `Exclude(s)` on the empty Frontier: a chain of `unitier` along `s`,
ending in a `zerotier`. -/
theorem setP_fresh_one (c : Byte) :
    setP (.unitier c .nil) [c] .zerotier = .unitier c .zerotier := by
  simp [setP_one, putEdge]

theorem setP_fresh_more (c c1 : Byte) (r : List Byte) :
    setP (.unitier c .nil) (c :: c1 :: r) .zerotier
      = .unitier c (setP (.unitier c1 .nil) (c1 :: r) .zerotier) := by
  simp [setP_more, putEdge, edge, childOrFresh, Tier.isNil]

/-- The leaves of the chain along `s`: at every place of `s` the other bytes, and at
the end of `s` every byte. -/
theorem mem_leaves_chain : ∀ (c : Byte) (r pre q : List Byte),
    q ∈ leaves (setP (.unitier c .nil) (c :: r) .zerotier) pre ↔
      (∃ p d t, ∃ b : Byte, c :: r = p ++ d :: t ∧ b ≠ d ∧ q = pre ++ p ++ [b]) ∨
      (∃ b : Byte, q = pre ++ (c :: r) ++ [b])
  | c, [], pre, q => by
      rw [setP_fresh_one, @mem_leaves_unitier c .zerotier rfl, mem_leaves_zerotier]
      constructor
      · rintro (⟨b, hb, rfl⟩ | ⟨b, rfl⟩)
        · exact Or.inl ⟨[], c, [], b, rfl, hb, by simp⟩
        · exact Or.inr ⟨b, by simp⟩
      · rintro (⟨p, d, t, b, e, hb, rfl⟩ | ⟨b, rfl⟩)
        · cases p with
          | nil =>
              obtain ⟨rfl, _⟩ := List.cons.inj e
              exact Or.inl ⟨b, hb, by simp⟩
          | cons x p =>
              have := congrArg List.length e
              simp at this
        · exact Or.inr ⟨b, by simp⟩
  | c, c1 :: r, pre, q => by
      rw [setP_fresh_more, mem_leaves_unitier c (setP_isNil (c1 :: r) (.unitier c1 .nil) .zerotier rfl),
        mem_leaves_chain c1 r (pre ++ [c]) q]
      constructor
      · rintro (⟨b, hb, rfl⟩ | ⟨p, d, t, b, e, hb, rfl⟩ | ⟨b, rfl⟩)
        · exact Or.inl ⟨[], c, c1 :: r, b, rfl, hb, by simp⟩
        · exact Or.inl ⟨c :: p, d, t, b, by simp [e], hb, by simp⟩
        · exact Or.inr ⟨b, by simp⟩
      · rintro (⟨p, d, t, b, e, hb, rfl⟩ | ⟨b, rfl⟩)
        · cases p with
          | nil =>
              obtain ⟨rfl, _⟩ := List.cons.inj e
              exact Or.inl ⟨b, hb, by simp⟩
          | cons x p =>
              obtain ⟨rfl, e1⟩ := List.cons.inj e
              exact Or.inr (Or.inl ⟨p, d, t, b, e1, hb, by simp⟩)
        · exact Or.inr (Or.inr ⟨b, by simp⟩)

theorem length_leaves_chain : ∀ (c : Byte) (r pre : List Byte),
    (leaves (setP (.unitier c .nil) (c :: r) .zerotier) pre).length
      = 255 * (c :: r).length + 256
  | c, [], pre => by
      rw [setP_fresh_one, @length_leaves_unitier c .zerotier rfl, length_leaves_zerotier]
      rfl
  | c, c1 :: r, pre => by
      rw [setP_fresh_more, length_leaves_unitier c (setP_isNil (c1 :: r) (.unitier c1 .nil) .zerotier rfl),
        length_leaves_chain c1 r (pre ++ [c])]
      simp only [List.length_cons]
      omega

/-- A place `k` of `s`, as a cut of `s` before and after its byte `s[k]`. -/
theorem split_iff_index (s q : List Byte) :
    (∃ p d t, ∃ b : Byte, s = p ++ d :: t ∧ b ≠ d ∧ q = p ++ [b]) ↔
      ∃ k, ∃ hk : k < s.length, ∃ b : Byte, b ≠ s[k] ∧ q = s.take k ++ [b] := by
  constructor
  · rintro ⟨p, d, t, b, rfl, hb, rfl⟩
    refine ⟨p.length, by simp, b, ?_, ?_⟩
    · rw [List.getElem_of_append rfl rfl]; exact hb
    · simp
  · rintro ⟨k, hk, b, hb, rfl⟩
    refine ⟨s.take k, s[k], s.drop (k + 1), b, ?_, hb, rfl⟩
    rw [← List.drop_eq_getElem_cons hk, List.take_append_drop]

/-- C10: after a single `Exclude(s)`, `s` non-empty of length `n`, on an empty Frontier,
`Walk` gives exactly the strings `s[0..k) ++ [b]` for `k < n` and `b ≠ s[k]`, and the
strings `s ++ [b]` for every byte `b`: `255 * n + 256` leaves, in ascending order. -/
theorem C10_walk_single_exclude (s : List Byte) (hs : s ≠ []) :
    ∃ f ls, Frontier.new.Exclude s = some f ∧ f.Walk = some ls ∧
      (∀ q, q ∈ ls ↔
        (∃ k, ∃ hk : k < s.length, ∃ b : Byte, b ≠ s[k] ∧ q = s.take k ++ [b]) ∨
        (∃ b : Byte, q = s ++ [b])) ∧
      ls.length = 255 * s.length + 256 ∧
      ls.Pairwise (fun x y => bytesLt x y = true) := by
  cases s with
  | nil => exact absurd rfl hs
  | cons c r =>
      refine ⟨_, _, Exclude_eq _ _, Walk_eq _, ?_, ?_, leaves_sorted _ _⟩
      · intro q
        rw [← split_iff_index]
        simpa using mem_leaves_chain c r [] q
      · exact length_leaves_chain c r []

/-- C10 at `Exclude("ab")`. -/
theorem C10_walk_single_exclude_witness :
    ∃ f ls, Frontier.new.Exclude [97, 98] = some f ∧ f.Walk = some ls ∧
      (∀ q, q ∈ ls ↔
        (∃ k, ∃ hk : k < ([97, 98] : List Byte).length, ∃ b : Byte,
          b ≠ ([97, 98] : List Byte)[k] ∧ q = ([97, 98] : List Byte).take k ++ [b]) ∨
        (∃ b : Byte, q = [97, 98] ++ [b])) ∧
      ls.length = 255 * ([97, 98] : List Byte).length + 256 ∧
      ls.Pairwise (fun x y => bytesLt x y = true) :=
  C10_walk_single_exclude [97, 98] (by decide)

/-! ## Excluding a string after one of its extensions -/

/-- C2: after `Exclude("abc")` and then `Exclude("ab")`, the excluded string "abc" is
itself one of the leaves given by `Walk`: the second call replaces the subtree below
"ab", which recorded "abc", by a sentinel. -/
theorem C2_excluded_string_among_leaves :
    ∃ f ls, Frontier.new.excludeAll [[97, 98, 99], [97, 98]] = some f ∧
      f.Walk = some ls ∧ ([97, 98, 99] : List Byte) ∈ ls :=
  ⟨_, _, excludeAll_eq _ _, Walk_eq _,
    (mem_leaves _ _ _).mpr ⟨[97, 98], 99, rfl, by decide, by decide⟩⟩

/-- C5: the excludes "abc", "ab" and the excludes "ab", "abc", one a permutation of the
other, leave Frontiers with different `Walk` sequences: "abc" is a leaf of the first
and not of the second. -/
theorem C5_walk_depends_on_order :
    ([[97, 98, 99], [97, 98]] : List (List Byte)).Perm [[97, 98], [97, 98, 99]] ∧
    ∃ f g ls ms, Frontier.new.excludeAll [[97, 98, 99], [97, 98]] = some f ∧
      Frontier.new.excludeAll [[97, 98], [97, 98, 99]] = some g ∧
      f.Walk = some ls ∧ g.Walk = some ms ∧ ls ≠ ms := by
  refine ⟨List.Perm.swap _ _ _, _, _, _, _, excludeAll_eq _ _, excludeAll_eq _ _, Walk_eq _,
    Walk_eq _, ?_⟩
  intro e
  have h1 : ([97, 98, 99] : List Byte)
      ∈ leaves (excludeAllP Frontier.new [[97, 98, 99], [97, 98]]).top [] :=
    (mem_leaves _ _ _).mpr ⟨[97, 98], 99, rfl, by decide, by decide⟩
  rw [e] at h1
  obtain ⟨p, c, hq, _, h2⟩ := (mem_leaves _ _ _).mp h1
  have hq1 : ([97, 98] : List Byte) ++ [99] = p ++ [c] := by simpa using hq
  obtain ⟨rfl, rfl⟩ := snoc_inj hq1
  revert h2
  decide

/-! ## Where `Check` stops -/

/-- The function `check` stops at the first node without an edge for the next byte, and
returns the path to that node with the result of `empty()` on it. -/
theorem checkP_stop : ∀ (p : List Byte) (c : Byte) (r : List Byte) (t : Tier) (pre : List Byte),
    (descend t p).isNil = false → edge (descend t p) c = .nil →
    checkP t (p ++ c :: r) pre = (pre ++ p, emptyB (descend t p))
  | [], c, r, t, pre, _, he => by
      have he1 : edge t c = .nil := he
      simp [checkP, he1, Tier.isNil, descend]
  | d :: p, c, r, t, pre, hn, he => by
      have hd := isNil_of_descend_cons hn
      have := checkP_stop p c r (edge t d) (pre ++ [d]) hn he
      simpa [checkP, hd, descend] using this

/-- C11, refuted as stated: after `Exclude("ab")`, `Check("ac")` arrives at the node of
"a", which has no edge for the byte 'c', and returns `("a", false)`. -/
theorem C11_counterexample :
    ∃ f n, Frontier.new.excludeAll [[97, 98]] = some f ∧ descend f.top [97] = n ∧
      n.isNil = false ∧ n.get 99 = some Tier.nil ∧
      f.Check ([97] ++ 99 :: []) = some ([97], false) :=
  ⟨_, _, excludeAll_eq _ _, rfl, by decide, rfl, by decide⟩

/-- C11, amended: for every Frontier and every byte string `x = p ++ c :: r`, if `Check`
arrives along `p` at a node `n` (so the Frontier has a root) that has no edge for the
next byte `c`, then `Check` returns the prefix `p` accumulated so far together with the
result of `n.empty()`: true on a sentinel, false on a sparse node. -/
theorem C11_check_stops_without_edge (f : Frontier) (p : List Byte) (c : Byte) (r : List Byte)
    (n : Tier) (harr : descend f.top p = n) (hn : n.isNil = false)
    (hget : n.get c = some Tier.nil) :
    ∃ e, n.empty = some e ∧ f.Check (p ++ c :: r) = some (p, e) ∧
      (n = .zerotier → e = true) ∧ (∀ b t, n = .unitier b t → e = false) := by
  subst harr
  have he : edge (descend f.top p) c = .nil := by
    rw [get_eq hn] at hget
    exact Option.some.inj hget
  have hroot : f.top.isNil = false := by
    cases h : f.top.isNil
    · rfl
    · rw [isNil_iff.mp h, descend_nil] at hn
      simp [Tier.isNil] at hn
  refine ⟨emptyB (descend f.top p), empty_eq hn, ?_, ?_, ?_⟩
  · rw [Check_eq]
    cases hE : emptyB f.top
    · rw [CheckP_of_rooted ⟨hroot, hE⟩, checkP_stop p c r _ _ hn he]
      rfl
    · cases p with
      | nil =>
          have hE1 : emptyB (descend f.top []) = true := hE
          simp [CheckP, hE, hE1]
      | cons d p =>
          rw [descend_of_emptyB hE] at hn
          simp [Tier.isNil] at hn
  · intro h; rw [h]; rfl
  · intro b t h; rw [h]; rfl

/-- C11, amended, at the Frontier after `Exclude("ab")` and `Check("ac")`. -/
theorem C11_check_stops_without_edge_witness :
    ∃ e, (descend (excludeAllP Frontier.new [[97, 98]]).top [97]).empty = some e ∧
      (excludeAllP Frontier.new [[97, 98]]).Check ([97] ++ 99 :: []) = some ([97], e) ∧
      (descend (excludeAllP Frontier.new [[97, 98]]).top [97] = .zerotier → e = true) ∧
      (∀ b t, descend (excludeAllP Frontier.new [[97, 98]]).top [97] = .unitier b t →
        e = false) :=
  C11_check_stops_without_edge (excludeAllP Frontier.new [[97, 98]]) [97] 99 [] _ rfl
    (by decide) rfl

/-! ## `Exclude`, `Check` and `Walk` do not fail -/

/-- C12: from an empty Frontier, every sequence of `Exclude` calls on arbitrary byte
strings returns, and then `Check` returns on every input (`Walk` too): no index is out of
range and no method is called on a nil node. -/
theorem C12_exclude_check_never_fail (l : List (List Byte)) (x : List Byte) :
    ∃ f r ls, Frontier.new.excludeAll l = some f ∧ f.Check x = some r ∧ f.Walk = some ls ∧
      ∀ s, ∃ f1, f.Exclude s = some f1 :=
  ⟨_, _, _, excludeAll_eq l _, Check_eq _ x, Walk_eq _, fun s => ⟨_, Exclude_eq _ s⟩⟩

/-- C13: `Exclude` of the empty byte string returns the Frontier unchanged, on every
Frontier; every `Check` result and the `Walk` sequence are those of before. -/
theorem C13_exclude_empty_noop (f : Frontier) :
    ∃ f1, f.Exclude [] = some f1 ∧ f1 = f ∧ (∀ x, f1.Check x = f.Check x) ∧
      f1.Walk = f.Walk :=
  ⟨f, rfl, rfl, fun _ => rfl, rfl⟩

/-- C14: on a Frontier with no root (only empty strings were excluded, if any), `Walk`
calls the callback zero times, while `Check` reports true, with the empty prefix, on
every input. -/
theorem C14_walk_no_root (l : List (List Byte)) (h : ∀ s ∈ l, s = []) :
    ∃ f, Frontier.new.excludeAll l = some f ∧ f.top = .nil ∧ f.Walk = some [] ∧
      ∀ x, f.Check x = some ([], true) :=
  ⟨Frontier.new, by rw [excludeAll_eq, excludeAllP_of_all_nil l _ h], rfl, rfl, fun _ => rfl⟩

/-- C14 at two excludes of the empty string. -/
theorem C14_walk_no_root_witness :
    ∃ f, Frontier.new.excludeAll [[], []] = some f ∧ f.top = .nil ∧ f.Walk = some [] ∧
      ∀ x, f.Check x = some ([], true) :=
  C14_walk_no_root [[], []] (by decide)

/-! ## The node invariant -/

theorem setP_eq_putEdge (t : Tier) (c : Byte) (rest : List Byte) (sub : Tier) :
    ∃ v, setP t (c :: rest) sub = putEdge t c v := by
  cases rest with
  | nil => exact ⟨sub, rfl⟩
  | cons c1 r => exact ⟨_, setP_more t c c1 r sub⟩

theorem putEdge_ne_zerotier {t : Tier} (h : t.isNil = false) (c : Byte) (v : Tier) :
    putEdge t c v ≠ .zerotier := by
  cases t with
  | nil => simp [Tier.isNil] at h
  | zerotier => simp [putEdge]
  | unitier b t => by_cases hb : b = c <;> simp [putEdge, hb]
  | arraytier a => simp [putEdge]

theorem excludeP_top_ne_zerotier (f : Frontier) (h : f.top ≠ .zerotier) (s : List Byte) :
    (excludeP f s).top ≠ .zerotier := by
  cases s with
  | nil => exact h
  | cons c r =>
      obtain ⟨v, hv⟩ := setP_eq_putEdge (childOrFresh f.top c) c r .zerotier
      show setP (childOrFresh f.top c) (c :: r) .zerotier ≠ .zerotier
      rw [hv]
      exact putEdge_ne_zerotier (childOrFresh_isNil _ _) c v

theorem excludeAllP_top_ne_zerotier : ∀ (l : List (List Byte)) (f : Frontier),
    f.top ≠ .zerotier → (excludeAllP f l).top ≠ .zerotier
  | [], _, h => h
  | s :: l, f, h => excludeAllP_top_ne_zerotier l (excludeP f s) (excludeP_top_ne_zerotier f h s)

/-- In a well-formed trie only the sentinel is empty. -/
theorem emptyB_iff_zerotier {t : Tier} (h : WellFormed t) : emptyB t = true ↔ t = .zerotier := by
  constructor
  · intro he
    cases h with
    | nil => simp [emptyB] at he
    | zerotier => rfl
    | unitier b t htn ht => simp [emptyB] at he
    | arraytier a h2 ha =>
        obtain ⟨i, _, _, hi, _⟩ := h2
        have := edge_of_emptyB he i
        simp only [edge] at this
        rw [this] at hi
        simp [Tier.isNil] at hi
  · intro e; rw [e]; rfl

/-- C16: in every Frontier reached from the empty one by `Exclude` calls, the root is not
a sentinel, every sparse node has a present child, every dense node has at least two
present slots, and `empty()` is true only on the sentinel nodes. -/
theorem C16_node_invariant (l : List (List Byte)) :
    ∃ f, Frontier.new.excludeAll l = some f ∧ f.top ≠ .zerotier ∧ WellFormed f.top ∧
      (∀ p b t, descend f.top p = .unitier b t → t.isNil = false) ∧
      (∀ p a, descend f.top p = .arraytier a →
        ∃ i j, i ≠ j ∧ (a i).isNil = false ∧ (a j).isNil = false) ∧
      (∀ p e, (descend f.top p).empty = some e → (e = true ↔ descend f.top p = .zerotier)) := by
  have hw : WellFormed (excludeAllP Frontier.new l).top :=
    wellFormed_excludeAllP l _ WellFormed.nil
  refine ⟨_, excludeAll_eq l _, excludeAllP_top_ne_zerotier l _ (by simp [Frontier.new]), hw,
    ?_, ?_, ?_⟩
  · intro p b t h
    have := wellFormed_descend p hw
    rw [h] at this
    cases this with
    | unitier _ _ htn _ => exact htn
  · intro p a h
    have := wellFormed_descend p hw
    rw [h] at this
    cases this with
    | arraytier _ h2 _ => exact h2
  · intro p e h
    have hwp := wellFormed_descend p hw
    cases hn : (descend (excludeAllP Frontier.new l).top p).isNil
    · rw [empty_eq hn] at h
      rw [← Option.some.inj h]
      exact emptyB_iff_zerotier hwp
    · rw [isNil_iff.mp hn] at h
      simp [Tier.empty] at h

/-! ## `set` keeps the sibling edges -/

/-- C17: for every node `n`, every non-empty path `c :: rest`, every subtree `t` and every
byte `b` other than `c`, `n.set(c :: rest, t)` returns a node on which `get(b)` is
`n.get(b)`; when `n` is a sparse node of another byte `d`, the node returned is dense and
its slot `d` holds the former child. -/
theorem C17_set_keeps_sibling_edges (n : Tier) (hn : n.isNil = false) (c : Byte)
    (rest : List Byte) (t : Tier) (b : Byte) (hb : b ≠ c) :
    ∃ n1, n.set (c :: rest) t = some n1 ∧ n1.get b = n.get b ∧
      (∀ d child, n = .unitier d child → d ≠ c →
        ∃ a, n1 = .arraytier a ∧ a d = child ∧ n1.get d = some child) := by
  obtain ⟨v, hv⟩ := setP_eq_putEdge n c rest t
  refine ⟨_, set_eq (c :: rest) n t hn (by simp), ?_, ?_⟩
  · rw [get_eq (setP_isNil _ _ _ hn), get_eq hn, hv, edge_putEdge hn, if_neg hb]
  · rintro d child rfl hd
    have hdc : ¬ d = c := hd
    refine ⟨Function.update (Function.update emptyArraytier d child) c v, ?_, ?_, ?_⟩
    · rw [hv]; simp [putEdge, hdc]
    · simp [Function.update, hdc]
    · rw [hv]; simp [putEdge, hdc, Tier.get, Function.update]

/-- C17 at the sparse node of "a" over a sentinel, the path "bc" and the byte 'a'. -/
theorem C17_set_keeps_sibling_edges_witness :
    ∃ n1, (Tier.unitier 97 .zerotier).set (98 :: [99]) .zerotier = some n1 ∧
      n1.get 97 = (Tier.unitier 97 .zerotier).get 97 ∧
      (∀ d child, Tier.unitier 97 .zerotier = .unitier d child → d ≠ 98 →
        ∃ a, n1 = .arraytier a ∧ a d = child ∧ n1.get d = some child) :=
  C17_set_keeps_sibling_edges (.unitier 97 .zerotier) rfl 98 [99] .zerotier 97 (by decide)

/-! ## The nodes of the trie after `set` -/

theorem isNil_descend_initial {t : Tier} {x y : List Byte} (hxy : x <+: y)
    (h : (descend t y).isNil = false) : (descend t x).isNil = false := by
  obtain ⟨r, rfl⟩ := hxy
  cases hn : (descend t x).isNil
  · rfl
  · rw [descend_append, isNil_iff.mp hn, descend_nil] at h
    simp [Tier.isNil] at h

/-- The nodes after `set(s, zerotier{})`: the nodes along `s`, and the nodes of before on
the paths that neither extend `s` nor are extended by `s`. -/
theorem isNil_descend_setP (t : Tier) (h : t.isNil = false) (s : List Byte) (hs : s ≠ [])
    (x : List Byte) :
    (descend (setP t s .zerotier) x).isNil = false ↔
      x <+: s ∨ (¬ s <+: x ∧ ¬ x <+: s ∧ (descend t x).isNil = false) := by
  have hend : (descend (setP t s .zerotier) s).isNil = false := by
    have := descend_setP_append s [] t .zerotier h hs
    rw [List.append_nil] at this
    rw [this]; rfl
  rcases prefix_trichotomy s x with ⟨r, rfl⟩ | ⟨d, r, rfl⟩ | ⟨p, a, b, s1, q1, hab, rfl, rfl⟩
  · cases r with
    | nil => simpa using hend
    | cons c r =>
        rw [descend_setP_append s (c :: r) t _ h hs]
        have h1 : ¬ (s ++ c :: r) <+: s := by
          intro hp
          have := hp.length_le
          simp at this
        simp [descend, edge, descend_nil, Tier.isNil, h1]
  · have hp : x <+: x ++ d :: r := List.prefix_append _ _
    simp only [hp, true_or, iff_true]
    exact isNil_descend_initial hp hend
  · rw [descend_setP_diverge p a b s1 q1 t _ h hab]
    have hnp : ¬ (p ++ a :: s1) <+: (p ++ b :: q1) := by
      rintro ⟨r, hr⟩
      rw [List.append_assoc] at hr
      have := List.append_cancel_left hr
      simp at this
      exact hab this.1
    have hnq : ¬ (p ++ b :: q1) <+: (p ++ a :: s1) := by
      rintro ⟨r, hr⟩
      rw [List.append_assoc] at hr
      have := List.append_cancel_left hr
      simp at this
      exact hab this.1.symm
    simp [hnp, hnq]

/-- The nodes of the trie after `Exclude(s)`, `s` non-empty. -/
theorem isNil_descend_excludeP (f : Frontier) (s : List Byte) (hs : s ≠ []) (x : List Byte) :
    (descend (excludeP f s).top x).isNil = false ↔
      x <+: s ∨ (¬ s <+: x ∧ ¬ x <+: s ∧ (descend f.top x).isNil = false) := by
  cases s with
  | nil => exact absurd rfl hs
  | cons c r =>
      have := isNil_descend_setP (childOrFresh f.top c) (childOrFresh_isNil _ _) (c :: r) hs x
      cases x with
      | nil => simpa using this
      | cons d x =>
          rw [descend_childOrFresh] at this
          exact this

/-- Excluding non-empty strings none of which is a proper prefix of another: the nodes of
the trie are exactly at the prefixes of the excluded strings. -/
theorem isNil_descend_excludeAllP : ∀ (l l0 : List (List Byte)) (f : Frontier),
    (∀ x, (descend f.top x).isNil = false ↔ ∃ s ∈ l0, x <+: s) →
    (∀ s ∈ l, s ≠ []) →
    (∀ a ∈ l0 ++ l, ∀ b ∈ l0 ++ l, a <+: b → a = b) →
    ∀ x, (descend (excludeAllP f l).top x).isNil = false ↔ ∃ s ∈ l0 ++ l, x <+: s
  | [], l0, f, h0, _, _ => by simpa [excludeAllP] using h0
  | s :: l, l0, f, h0, hne, hpf => by
      have hs : s ≠ [] := hne s (List.mem_cons_self _ _)
      have hsm : s ∈ l0 ++ s :: l := by simp
      have step : ∀ x, (descend (excludeP f s).top x).isNil = false ↔
          ∃ a ∈ l0 ++ [s], x <+: a := by
        intro x
        rw [isNil_descend_excludeP f s hs x, h0 x]
        constructor
        · rintro (h | ⟨_, _, a, ha, hxa⟩)
          · exact ⟨s, by simp, h⟩
          · exact ⟨a, List.mem_append_left _ ha, hxa⟩
        · rintro ⟨a, ha, hxa⟩
          rcases List.mem_append.mp ha with ha | ha
          · by_cases hxs : x <+: s
            · exact Or.inl hxs
            · refine Or.inr ⟨fun hsx => hxs ?_, hxs, a, ha, hxa⟩
              have hsa : s = a :=
                hpf s hsm a (List.mem_append_left _ ha) (hsx.trans hxa)
              rw [hsa]; exact hxa
          · obtain rfl : a = s := by simpa using ha
            exact Or.inl hxa
      have := isNil_descend_excludeAllP l (l0 ++ [s]) (excludeP f s) step
        (fun a ha => hne a (List.mem_cons_of_mem _ ha)) (by simpa using hpf)
      simpa [excludeAllP_cons] using this

/-! ## The leaves are prefix-free -/

/-- The leaves of `Walk`: the paths that leave the trie at their last byte. -/
theorem mem_leaves_root (t : Tier) (y : List Byte) :
    y ∈ leaves t [] ↔
      ∃ u b, y = u ++ [b] ∧ (descend t u).isNil = false ∧ (descend t (u ++ [b])).isNil = true := by
  rw [mem_leaves]
  constructor
  · rintro ⟨u, b, rfl, h1, h2⟩
    exact ⟨u, b, by simp, h1, by rw [descend_snoc]; exact h2⟩
  · rintro ⟨u, b, rfl, h1, h2⟩
    exact ⟨u, b, by simp, h1, by rw [descend_snoc] at h2; exact h2⟩

theorem isNil_descend_past_leaf {t : Tier} {q x : List Byte} (hq : q ∈ leaves t [])
    (hqx : q <+: x) : (descend t x).isNil = true := by
  obtain ⟨u, b, rfl, _, h2⟩ := (mem_leaves_root t q).mp hq
  cases hn : (descend t x).isNil
  · rw [isNil_descend_initial hqx hn] at h2
    exact h2
  · rfl

/-- No leaf is a proper prefix of another leaf. -/
theorem leaves_prefix_free (t : Tier) {q1 q2 : List Byte} (h1 : q1 ∈ leaves t [])
    (h2 : q2 ∈ leaves t []) (h : q1 <+: q2) : q1 = q2 := by
  obtain ⟨u, b, rfl, hu, _⟩ := (mem_leaves_root t q2).mp h2
  rcases List.prefix_concat_iff.mp h with e | hp
  · exact e
  · have := isNil_descend_past_leaf h1 hp
    rw [hu] at this
    exact absurd this (by simp)

/-- A string has at most one prefix among the leaves. -/
theorem leaf_prefix_unique (t : Tier) {q1 q2 x : List Byte} (h1 : q1 ∈ leaves t [])
    (h2 : q2 ∈ leaves t []) (hx1 : q1 <+: x) (hx2 : q2 <+: x) : q1 = q2 := by
  rcases List.prefix_or_prefix_of_prefix hx1 hx2 with h | h
  · exact leaves_prefix_free t h1 h2 h
  · exact (leaves_prefix_free t h2 h1 h).symm

/-- Under a root, a string has a prefix among the leaves exactly when its path leaves the
trie. -/
theorem exists_leaf_prefix_iff {t : Tier} (h : t.isNil = false) (x : List Byte) :
    (∃ q ∈ leaves t [], q <+: x) ↔ (descend t x).isNil = true := by
  constructor
  · rintro ⟨q, hq, hqx⟩
    exact isNil_descend_past_leaf hq hqx
  · intro hx
    have key : ∀ (n : Nat) (u : List Byte), u <+: x → u.length + n = x.length →
        (descend t u).isNil = false → ∃ q ∈ leaves t [], q <+: x := by
      intro n
      induction n with
      | zero =>
          intro u hu hlen hn
          have := hu.eq_of_length (by omega)
          rw [this, hx] at hn
          exact absurd hn (by simp)
      | succ n ih =>
          intro u hu hlen hn
          obtain ⟨r, rfl⟩ := hu
          cases r with
          | nil => simp at hlen
          | cons b r =>
              cases hb : (descend t (u ++ [b])).isNil
              · exact ih (u ++ [b]) ⟨r, by simp⟩ (by simp at hlen ⊢; omega) hb
              · exact ⟨u ++ [b], (mem_leaves_root t _).mpr ⟨u, b, rfl, hn, hb⟩, ⟨r, by simp⟩⟩
    exact key x.length [] List.nil_prefix (by simp) h

/-- C19: on every Frontier reached by `Exclude` calls, every leaf given by `Walk` is
non-empty, no leaf is a proper prefix of another leaf, and any string has at most one
prefix among the leaves. -/
theorem C19_leaves_prefix_free (l : List (List Byte)) :
    ∃ f ls, Frontier.new.excludeAll l = some f ∧ f.Walk = some ls ∧
      (∀ q ∈ ls, q ≠ []) ∧
      (∀ q1 ∈ ls, ∀ q2 ∈ ls, q1 <+: q2 → q1 = q2) ∧
      (∀ x, ∀ q1 ∈ ls, ∀ q2 ∈ ls, q1 <+: x → q2 <+: x → q1 = q2) := by
  refine ⟨_, _, excludeAll_eq l _, Walk_eq _, ?_, ?_, ?_⟩
  · intro q hq
    obtain ⟨u, b, rfl, _, _⟩ := (mem_leaves_root _ q).mp hq
    simp
  · intro q1 h1 q2 h2 h
    exact leaves_prefix_free _ h1 h2 h
  · intro x q1 h1 q2 h2 hx1 hx2
    exact leaf_prefix_unique _ h1 h2 hx1 hx2

/-! ## Strings of one length -/

/-- C18: when the strings excluded all have the same length `n ≥ 1` and there is at least
one, a string `x` of length `n` has a prefix among the leaves given by `Walk` exactly
when `x` was not excluded, and it has at most one such prefix. -/
theorem C18_fixed_length_membership (l : List (List Byte)) (n : Nat) (hn : 1 ≤ n)
    (hl : l ≠ []) (hlen : ∀ s ∈ l, s.length = n) (x : List Byte) (hx : x.length = n) :
    ∃ f ls, Frontier.new.excludeAll l = some f ∧ f.Walk = some ls ∧
      ((∃ q ∈ ls, q <+: x) ↔ x ∉ l) ∧
      (∀ q1 ∈ ls, ∀ q2 ∈ ls, q1 <+: x → q2 <+: x → q1 = q2) := by
  have hne : ∀ s ∈ l, s ≠ [] := by
    intro s hs e
    have := hlen s hs
    rw [e] at this
    simp at this
    omega
  have hpf : ∀ a ∈ l, ∀ b ∈ l, a <+: b → a = b := fun a ha b hb hab =>
    hab.eq_of_length (by rw [hlen a ha, hlen b hb])
  have hr : (excludeAllP Frontier.new l).top.isNil = false := by
    refine (rooted_excludeAllP l Frontier.new (Or.inl ?_)).1
    cases l with
    | nil => exact absurd rfl hl
    | cons s l => exact ⟨s, List.mem_cons_self _ _, hne s (List.mem_cons_self _ _)⟩
  have hnode := isNil_descend_excludeAllP l [] Frontier.new
    (fun y => by simp [Frontier.new, descend_nil, Tier.isNil]) hne (by simpa using hpf)
  simp only [List.nil_append] at hnode
  refine ⟨_, _, excludeAll_eq l _, Walk_eq _, ?_, ?_⟩
  · rw [exists_leaf_prefix_iff hr x]
    constructor
    · intro h hxl
      have := (hnode x).mpr ⟨x, hxl, List.prefix_refl _⟩
      rw [h] at this
      exact absurd this (by simp)
    · intro hxl
      cases hc : (descend (excludeAllP Frontier.new l).top x).isNil
      · obtain ⟨s, hs, hxs⟩ := (hnode x).mp hc
        have := hxs.eq_of_length (by rw [hx, hlen s hs])
        exact absurd (this ▸ hs) hxl
      · rfl
  · intro q1 h1 q2 h2 hx1 hx2
    exact leaf_prefix_unique _ h1 h2 hx1 hx2

/-- C18 at the excludes "ab", "ba" and the string "ac". -/
theorem C18_fixed_length_membership_witness :
    ∃ f ls, Frontier.new.excludeAll [[97, 98], [98, 97]] = some f ∧ f.Walk = some ls ∧
      ((∃ q ∈ ls, q <+: [97, 99]) ↔ ([97, 99] : List Byte) ∉ [[97, 98], [98, 97]]) ∧
      (∀ q1 ∈ ls, ∀ q2 ∈ ls, q1 <+: [97, 99] → q2 <+: [97, 99] → q1 = q2) :=
  C18_fixed_length_membership [[97, 98], [98, 97]] 2 (by decide) (by decide) (by decide)
    [97, 99] rfl

/-! ## Order independence -/

theorem bytesLt_asymm : ∀ x y : List Byte, bytesLt x y = true → bytesLt y x = false
  | _, [], h => by simp [bytesLt] at h
  | [], _ :: _, _ => rfl
  | a :: x, b :: y, h => by
      simp only [bytesLt, Bool.or_eq_true, Bool.and_eq_true, decide_eq_true_eq] at h
      rcases h with h | ⟨rfl, h⟩
      · have h1 : ¬ b < a := fun h2 => absurd (lt_trans h h2) (lt_irrefl _)
        have h2 : ¬ b = a := fun e => absurd (e ▸ h) (lt_irrefl _)
        simp [bytesLt, h1, h2]
      · simp [bytesLt, bytesLt_asymm x y h]

/-- Two strictly ascending lists with the same members are equal. -/
theorem eq_of_sorted_of_mem_iff {l1 l2 : List (List Byte)}
    (h1 : l1.Pairwise (fun x y => bytesLt x y = true))
    (h2 : l2.Pairwise (fun x y => bytesLt x y = true))
    (h : ∀ q, q ∈ l1 ↔ q ∈ l2) : l1 = l2 := by
  have nd : ∀ {l : List (List Byte)}, l.Pairwise (fun x y => bytesLt x y = true) → l.Nodup :=
    fun hl => hl.imp (fun {x y} hxy e => by
      rw [e, bytesLt_irrefl] at hxy
      exact Bool.false_ne_true hxy)
  haveI : IsAntisymm (List Byte) (fun x y => bytesLt x y = true) :=
    ⟨fun a b hab hba => by
      rw [bytesLt_asymm a b hab] at hba
      exact absurd hba (by simp)⟩
  exact List.eq_of_perm_of_sorted ((List.perm_ext_iff_of_nodup (nd h1) (nd h2)).mpr h) h1 h2

/-- The leaves depend only on which paths stay in the trie. -/
theorem leaves_congr {t1 t2 : Tier}
    (h : ∀ x, (descend t1 x).isNil = (descend t2 x).isNil) : leaves t1 [] = leaves t2 [] := by
  apply eq_of_sorted_of_mem_iff (leaves_sorted _ _) (leaves_sorted _ _)
  intro q
  rw [mem_leaves_root, mem_leaves_root]
  constructor
  · rintro ⟨u, b, rfl, hu, hb⟩
    exact ⟨u, b, rfl, by rw [← h]; exact hu, by rw [← h]; exact hb⟩
  · rintro ⟨u, b, rfl, hu, hb⟩
    exact ⟨u, b, rfl, by rw [h]; exact hu, by rw [h]; exact hb⟩

/-- The result of `check` depends only on which paths stay in the trie and on which of
them lead to an empty node. -/
theorem checkP_congr : ∀ (x : List Byte) (t1 t2 : Tier) (pre : List Byte),
    (∀ p, (descend t1 p).isNil = (descend t2 p).isNil) →
    (∀ p, emptyB (descend t1 p) = emptyB (descend t2 p)) →
    checkP t1 x pre = checkP t2 x pre
  | [], t1, t2, pre, _, he => by
      have := he []
      simp only [descend] at this
      simp [checkP, this]
  | c :: x, t1, t2, pre, hn, he => by
      have h0 := he []
      have h1 := hn [c]
      simp only [descend] at h0 h1
      have ih := checkP_congr x (edge t1 c) (edge t2 c) (pre ++ [c])
        (fun p => hn (c :: p)) (fun p => he (c :: p))
      simp only [checkP, h0, h1, ih]

theorem CheckP_congr {f g : Frontier}
    (hn : ∀ p, (descend f.top p).isNil = (descend g.top p).isNil)
    (he : ∀ p, emptyB (descend f.top p) = emptyB (descend g.top p)) (x : List Byte) :
    CheckP f x = CheckP g x := by
  have h0 := he []
  have h1 := hn []
  simp only [descend] at h0 h1
  simp only [CheckP, h0, h1, checkP_congr x f.top g.top [] hn he]

theorem bool_eq_of_iff {a b : Bool} (h : a = false ↔ b = false) : a = b := by
  cases a <;> cases b <;> simp_all

theorem bool_eq_of_iff_true {a b : Bool} (h : a = true ↔ b = true) : a = b := by
  cases a <;> cases b <;> simp_all

/-- C20: for a list of non-empty strings none of which is a proper prefix of another,
excluding the list and excluding any permutation of it, each on an empty Frontier, leave
Frontiers with the same `Walk` sequence and the same `Check` result on every input. -/
theorem C20_order_independent_prefix_free (l l1 : List (List Byte)) (hperm : l.Perm l1)
    (hne : ∀ s ∈ l, s ≠ []) (hpf : ∀ a ∈ l, ∀ b ∈ l, a <+: b → a = b) :
    ∃ f g, Frontier.new.excludeAll l = some f ∧ Frontier.new.excludeAll l1 = some g ∧
      f.Walk = g.Walk ∧ ∀ x, f.Check x = g.Check x := by
  have hne1 : ∀ s ∈ l1, s ≠ [] := fun s hs => hne s (hperm.mem_iff.mpr hs)
  have hpf1 : ∀ a ∈ l1, ∀ b ∈ l1, a <+: b → a = b := fun a ha b hb =>
    hpf a (hperm.mem_iff.mpr ha) b (hperm.mem_iff.mpr hb)
  have base_n : ∀ y, (descend Frontier.new.top y).isNil = false ↔
      ∃ s ∈ ([] : List (List Byte)), y <+: s := fun y => by
    simp [Frontier.new, descend_nil, Tier.isNil]
  have base_e : ∀ y, emptyB (descend Frontier.new.top y) = true ↔
      y ∈ ([] : List (List Byte)) := fun y => by
    simp [Frontier.new, descend_nil, emptyB]
  have n1 := isNil_descend_excludeAllP l [] Frontier.new base_n hne (by simpa using hpf)
  have n2 := isNil_descend_excludeAllP l1 [] Frontier.new base_n hne1 (by simpa using hpf1)
  have e1 := emptyB_descend_excludeAllP l [] Frontier.new base_e hne (by simpa using hpf)
  have e2 := emptyB_descend_excludeAllP l1 [] Frontier.new base_e hne1 (by simpa using hpf1)
  simp only [List.nil_append] at n1 n2 e1 e2
  have hn : ∀ p, (descend (excludeAllP Frontier.new l).top p).isNil
      = (descend (excludeAllP Frontier.new l1).top p).isNil := by
    intro p
    apply bool_eq_of_iff
    rw [n1, n2]
    exact ⟨fun ⟨s, hs, h⟩ => ⟨s, hperm.mem_iff.mp hs, h⟩,
      fun ⟨s, hs, h⟩ => ⟨s, hperm.mem_iff.mpr hs, h⟩⟩
  have he : ∀ p, emptyB (descend (excludeAllP Frontier.new l).top p)
      = emptyB (descend (excludeAllP Frontier.new l1).top p) := by
    intro p
    apply bool_eq_of_iff_true
    rw [e1, e2]
    exact hperm.mem_iff
  refine ⟨_, _, excludeAll_eq l _, excludeAll_eq l1 _, ?_, ?_⟩
  · rw [Walk_eq, Walk_eq, leaves_congr hn]
  · intro x
    rw [Check_eq, Check_eq, CheckP_congr hn he]

/-- C20 at the excludes "ab", "ba" and the excludes "ba", "ab". -/
theorem C20_order_independent_prefix_free_witness :
    ∃ f g, Frontier.new.excludeAll [[97, 98], [98, 97]] = some f ∧
      Frontier.new.excludeAll [[98, 97], [97, 98]] = some g ∧
      f.Walk = g.Walk ∧ ∀ x, f.Check x = g.Check x :=
  C20_order_independent_prefix_free [[97, 98], [98, 97]] [[98, 97], [97, 98]]
    (List.Perm.swap _ _ _) (by decide) (by decide)

/-! ## The leaves replaced by `Exclude` -/

/-- When a leaf `q` is a prefix of `s`, the nodes after `Exclude(s)` are the nodes of
before and the nodes on the paths from `q` to `s`. -/
theorem isNil_descend_excludeP_of_leaf (f : Frontier) (s : List Byte) (hs : s ≠ [])
    {q : List Byte} (hq : q ∈ leaves f.top []) (hqs : q <+: s) (x : List Byte) :
    (descend (excludeP f s).top x).isNil = false ↔
      (descend f.top x).isNil = false ∨ (q <+: x ∧ x <+: s) := by
  obtain ⟨u, b, rfl, hu, _⟩ := (mem_leaves_root f.top q).mp hq
  rw [isNil_descend_excludeP f s hs x]
  constructor
  · rintro (hxs | ⟨_, _, h⟩)
    · rcases List.prefix_or_prefix_of_prefix hqs hxs with h | h
      · exact Or.inr ⟨h, hxs⟩
      · rcases List.prefix_concat_iff.mp h with e | hp
        · exact Or.inr ⟨e ▸ List.prefix_refl _, hxs⟩
        · exact Or.inl (isNil_descend_initial hp hu)
    · exact Or.inl h
  · rintro (h | ⟨_, hxs⟩)
    · by_cases hxs : x <+: s
      · exact Or.inl hxs
      · refine Or.inr ⟨fun hsx => ?_, hxs, h⟩
        have := isNil_descend_past_leaf hq (hqs.trans hsx)
        rw [h] at this
        exact absurd this (by simp)
    · exact Or.inl hxs

/-- A place `k` of `s` at or after the end of its prefix `q`, as a cut of `s`. -/
theorem split_iff_index_from (s q y : List Byte) (hqs : q <+: s) :
    (∃ u d t, ∃ b : Byte, s = u ++ d :: t ∧ q <+: u ∧ b ≠ d ∧ y = u ++ [b]) ↔
      ∃ k, ∃ hk : k < s.length, ∃ b : Byte,
        q.length ≤ k ∧ b ≠ s[k] ∧ y = s.take k ++ [b] := by
  constructor
  · rintro ⟨u, d, t, b, rfl, hqu, hb, rfl⟩
    refine ⟨u.length, by simp, b, hqu.length_le, ?_, ?_⟩
    · rw [List.getElem_of_append rfl rfl]; exact hb
    · simp
  · rintro ⟨k, hk, b, hqk, hb, rfl⟩
    refine ⟨s.take k, s[k], s.drop (k + 1), b, ?_, ?_, hb, rfl⟩
    · rw [← List.drop_eq_getElem_cons hk, List.take_append_drop]
    · exact List.prefix_take_iff.mpr ⟨hqs, hqk⟩

/-- The leaves after `Exclude(s)`, when the leaf `q` of before is a prefix of `s`. -/
theorem mem_leaves_excludeP_of_leaf (f : Frontier) (s : List Byte) (hs : s ≠ [])
    {q : List Byte} (hq : q ∈ leaves f.top []) (hqs : q <+: s) (y : List Byte) :
    y ∈ leaves (excludeP f s).top [] ↔
      (y ∈ leaves f.top [] ∧ y ≠ q) ∨
      (∃ u d t, ∃ b : Byte, s = u ++ d :: t ∧ q <+: u ∧ b ≠ d ∧ y = u ++ [b]) ∨
      (∃ b : Byte, y = s ++ [b]) := by
  have hN := isNil_descend_excludeP_of_leaf f s hs hq hqs
  have hnew : ∀ x, (descend (excludeP f s).top x).isNil = true ↔
      (descend f.top x).isNil = true ∧ ¬ (q <+: x ∧ x <+: s) := by
    intro x
    have := hN x
    cases h1 : (descend (excludeP f s).top x).isNil <;>
      cases h2 : (descend f.top x).isNil <;> simp_all
  have hold : ∀ x, q <+: x → (descend f.top x).isNil = true :=
    fun x hx => isNil_descend_past_leaf hq hx
  rw [mem_leaves_root]
  constructor
  · rintro ⟨u, b, rfl, hu, hb⟩
    obtain ⟨hb1, hb2⟩ := (hnew _).mp hb
    rcases (hN u).mp hu with hu1 | ⟨hqu, hus⟩
    · refine Or.inl ⟨(mem_leaves_root _ _).mpr ⟨u, b, rfl, hu1, hb1⟩, fun e => hb2 ?_⟩
      rw [e]
      exact ⟨List.prefix_refl _, hqs⟩
    · obtain ⟨r, rfl⟩ := hus
      cases r with
      | nil => exact Or.inr (Or.inr ⟨b, by simp⟩)
      | cons d r =>
          refine Or.inr (Or.inl ⟨u, d, r, b, rfl, hqu, fun e => hb2 ⟨?_, ?_⟩, rfl⟩)
          · exact hqu.trans (List.prefix_append _ _)
          · rw [e]; exact ⟨r, by simp⟩
  · rintro (⟨hy, hyq⟩ | ⟨u, d, t, b, rfl, hqu, hb, rfl⟩ | ⟨b, rfl⟩)
    · obtain ⟨u, b, rfl, hu, hb⟩ := (mem_leaves_root _ _).mp hy
      refine ⟨u, b, rfl, (hN u).mpr (Or.inl hu), (hnew _).mpr ⟨hb, fun h => hyq ?_⟩⟩
      exact (leaves_prefix_free _ hq hy h.1).symm
    · refine ⟨u, b, rfl, (hN u).mpr (Or.inr ⟨hqu, List.prefix_append _ _⟩),
        (hnew _).mpr ⟨hold _ (hqu.trans (List.prefix_append _ _)), fun h => hb ?_⟩⟩
      have h2 : u ++ [b] <+: u ++ d :: t := h.2
      rw [List.prefix_append_right_inj] at h2
      obtain ⟨r, hr⟩ := h2
      simp at hr
      exact hr.1
    · refine ⟨s, b, rfl, (hN s).mpr (Or.inr ⟨hqs, List.prefix_refl _⟩),
        (hnew _).mpr ⟨hold _ (hqs.trans (List.prefix_append _ _)), fun h => ?_⟩⟩
      have := h.2.length_le
      simp at this

/-- C15: on a Frontier reached by `Exclude` calls, for a non-empty `s` and a leaf `q`
given by `Walk` that is a prefix of `s`: the leaves given by `Walk` after `Exclude(s)`
are the leaves of before other than `q`, the strings `s[0..k) ++ [b]` for
`|q| ≤ k < |s|` and `b ≠ s[k]`, and the strings `s ++ [b]` for every byte `b`. -/
theorem C15_leaf_replacement (l : List (List Byte)) (s q : List Byte) (f : Frontier)
    (ls : List (List Byte)) (hf : Frontier.new.excludeAll l = some f)
    (hw : f.Walk = some ls) (hs : s ≠ []) (hq : q ∈ ls) (hqs : q <+: s) :
    ∃ f1 ls1, f.Exclude s = some f1 ∧ f1.Walk = some ls1 ∧
      ∀ y, y ∈ ls1 ↔
        (y ∈ ls ∧ y ≠ q) ∨
        (∃ k, ∃ hk : k < s.length, ∃ b : Byte,
          q.length ≤ k ∧ b ≠ s[k] ∧ y = s.take k ++ [b]) ∨
        (∃ b : Byte, y = s ++ [b]) := by
  rw [Walk_eq] at hw
  obtain rfl := Option.some.inj hw
  refine ⟨_, _, Exclude_eq f s, Walk_eq _, fun y => ?_⟩
  rw [← split_iff_index_from s q y hqs]
  exact mem_leaves_excludeP_of_leaf f s hs hq hqs y

/-- C15 at the Frontier after `Exclude("a")`, its leaf "ab" and `Exclude("abc")`. -/
theorem C15_leaf_replacement_witness :
    ∃ f1 ls1, (excludeAllP Frontier.new [[97]]).Exclude [97, 98, 99] = some f1 ∧
      f1.Walk = some ls1 ∧
      ∀ y, y ∈ ls1 ↔
        (y ∈ leaves (excludeAllP Frontier.new [[97]]).top [] ∧ y ≠ [97, 98]) ∨
        (∃ k, ∃ hk : k < ([97, 98, 99] : List Byte).length, ∃ b : Byte,
          ([97, 98] : List Byte).length ≤ k ∧ b ≠ ([97, 98, 99] : List Byte)[k] ∧
            y = ([97, 98, 99] : List Byte).take k ++ [b]) ∨
        (∃ b : Byte, y = [97, 98, 99] ++ [b]) :=
  C15_leaf_replacement [[97]] [97, 98, 99] [97, 98] (excludeAllP Frontier.new [[97]])
    (leaves (excludeAllP Frontier.new [[97]]).top []) (excludeAll_eq _ _) (Walk_eq _)
    (by decide) ((mem_leaves_root _ _).mpr ⟨[97], 98, rfl, by decide, by decide⟩)
    (by decide)

end frontier
